import Mathlib

/-
Verification of the core of `tarsnap_prune.py`: a shallow embedding of its
time-bucket formatting (`TIME_PATTERNS` / `strftime`), keep-spec parsing
(`parse_keep_specs`), listing parsing and grouping (`parse_arcs`, `NAME_RE`)
and the retention selector (`arc_names_to_keep`, `arc_names_to_delete`),
together with theorems settling the specification's claims.

Modelling conventions:
- Python `datetime` values are records of six `Nat` fields with a validity
  predicate mirroring the `datetime` constructor's range checks; calendar
  arithmetic (proleptic Gregorian ordinals, ISO week computation) is carried
  out in `Int` with Lean's `/` and `%` (Euclidean), which agree with Python's
  floor division and modulo for the positive divisors used here.
- Character classes `[0-9]` and `\d` are modelled as ASCII digits, and
  `str.splitlines` is modelled as splitting on `'\n'` (the only line
  terminator produced by `tarsnap --list-archives`).
- Python generators are modelled as the lists of their yielded values; the
  in-place `list.sort` is modelled by returning the sorted list alongside
  the yielded values; exceptions are modelled with `Except`; the `set`
  `keep` is modelled by a list used only through membership.
-/

namespace TarsnapPrune

/-! ### Timestamps: Python `datetime.datetime` at second precision -/

structure DateTime where
  year : Nat
  month : Nat
  day : Nat
  hour : Nat
  minute : Nat
  second : Nat
deriving DecidableEq, Repr

/-- Python `_is_leap(year)`. -/
def isLeap (y : Nat) : Bool := y % 4 = 0 && (y % 100 ≠ 0 || y % 400 = 0)

/-- Python `_days_in_month(year, month)` for months 1..12. -/
def daysInMonth (y m : Nat) : Nat :=
  if m = 2 then (if isLeap y then 29 else 28)
  else if m = 4 ∨ m = 6 ∨ m = 9 ∨ m = 11 then 30
  else 31

/-- The field ranges enforced by Python's `datetime` constructor. -/
def DateTime.Valid (t : DateTime) : Prop :=
  1 ≤ t.year ∧ t.year ≤ 9999 ∧ 1 ≤ t.month ∧ t.month ≤ 12 ∧
  1 ≤ t.day ∧ t.day ≤ daysInMonth t.year t.month ∧
  t.hour ≤ 23 ∧ t.minute ≤ 59 ∧ t.second ≤ 59

instance (t : DateTime) : Decidable t.Valid := by unfold DateTime.Valid; infer_instance

/-- Python `datetime` comparison `a <= b`: lexicographic on the six fields. -/
def dtLe (a b : DateTime) : Prop :=
  a.year < b.year ∨ (a.year = b.year ∧
    (a.month < b.month ∨ (a.month = b.month ∧
      (a.day < b.day ∨ (a.day = b.day ∧
        (a.hour < b.hour ∨ (a.hour = b.hour ∧
          (a.minute < b.minute ∨ (a.minute = b.minute ∧
            a.second ≤ b.second)))))))))

/-- Python `datetime` comparison `a < b`: strict lexicographic order. -/
def dtLt (a b : DateTime) : Prop :=
  a.year < b.year ∨ (a.year = b.year ∧
    (a.month < b.month ∨ (a.month = b.month ∧
      (a.day < b.day ∨ (a.day = b.day ∧
        (a.hour < b.hour ∨ (a.hour = b.hour ∧
          (a.minute < b.minute ∨ (a.minute = b.minute ∧
            a.second < b.second)))))))))

instance (a b : DateTime) : Decidable (dtLe a b) := by unfold dtLe; infer_instance

instance (a b : DateTime) : Decidable (dtLt a b) := by unfold dtLt; infer_instance

/-! ### Proleptic Gregorian ordinals and the ISO calendar
(Python `datetime` module internals backing `%G`/`%V`) -/

/-- Python `_days_before_year(year)`: days before January 1 of `year`
(with `y := year - 1`, that is `365*y + y//4 - y//100 + y//400`). -/
def daysBeforeYear (year : Int) : Int :=
  365 * (year - 1) + (year - 1) / 4 - (year - 1) / 100 + (year - 1) / 400

/-- Cumulative day counts before each month in a non-leap year
(Python `_DAYS_BEFORE_MONTH`). -/
def daysBeforeMonthTable (m : Nat) : Int :=
  match m with
  | 1 => 0 | 2 => 31 | 3 => 59 | 4 => 90 | 5 => 120 | 6 => 151
  | 7 => 181 | 8 => 212 | 9 => 243 | 10 => 273 | 11 => 304 | 12 => 334
  | _ => 0

/-- Python `_days_before_month(year, month)`. -/
def daysBeforeMonth (y m : Nat) : Int :=
  daysBeforeMonthTable m + (if 2 < m ∧ isLeap y then 1 else 0)

/-- Python `_ymd2ord`: proleptic Gregorian ordinal (0001-01-01 is day 1). -/
def toOrdinal (t : DateTime) : Int :=
  daysBeforeYear t.year + daysBeforeMonth t.year t.month + t.day

/-- The Monday (as an ordinal) of the ISO week containing ordinal `n`
(ordinal 1, 0001-01-01, is a Monday). -/
def mondayOf (n : Int) : Int := n - (n - 1) % 7

/-- Python `datetime._isoweek1monday(year)`: ordinal of the Monday starting
ISO week 1 of `year` (the week containing the first Thursday).
`_ymd2ord(year, 1, 1)` is `daysBeforeYear year + 1`. -/
def isoweek1monday (year : Int) : Int :=
  let firstday := daysBeforeYear year + 1
  let firstweekday := (firstday + 6) % 7
  let week1monday := firstday - firstweekday
  if 3 < firstweekday then week1monday + 7 else week1monday

/-- Python `date.isocalendar()`, restricted to the (ISO year, ISO week) pair
used by the `%G` and `%V` format directives. -/
def isocalendar (t : DateTime) : Int × Int :=
  let year : Int := t.year
  let week1monday := isoweek1monday year
  let today := toOrdinal t
  let week := (today - week1monday) / 7
  if week < 0 then
    (year - 1, (today - isoweek1monday (year - 1)) / 7 + 1)
  else if 52 ≤ week then
    if isoweek1monday (year + 1) ≤ today then (year + 1, 1)
    else (year, week + 1)
  else (year, week + 1)

/-! ### strftime for the directives used in `TIME_PATTERNS` -/

/-- Zero-padded two-digit decimal rendering (`%m`, `%d`, `%H`, `%M`, `%S`, `%V`). -/
def pad2Chars (n : Nat) : List Char :=
  [Nat.digitChar (n / 10 % 10), Nat.digitChar (n % 10)]

/-- Zero-padded four-digit decimal rendering (`%Y`, `%G` for years 1..9999). -/
def pad4Chars (n : Nat) : List Char :=
  [Nat.digitChar (n / 1000 % 10), Nat.digitChar (n / 100 % 10),
   Nat.digitChar (n / 10 % 10), Nat.digitChar (n % 10)]

/-- One `%`-directive of `strftime`, for the directives appearing in
`TIME_PATTERNS`. -/
def strftimeDir (t : DateTime) (c : Char) : List Char :=
  if c = 'Y' then pad4Chars t.year
  else if c = 'm' then pad2Chars t.month
  else if c = 'd' then pad2Chars t.day
  else if c = 'H' then pad2Chars t.hour
  else if c = 'M' then pad2Chars t.minute
  else if c = 'S' then pad2Chars t.second
  else if c = 'G' then pad4Chars (isocalendar t).1.toNat
  else if c = 'V' then pad2Chars (isocalendar t).2.toNat
  else ['%', c]

def strftimeChars (t : DateTime) : List Char → List Char
  | [] => []
  | c :: rest =>
    if c = '%' then
      match rest with
      | [] => ['%']
      | d :: rest' => strftimeDir t d ++ strftimeChars t rest'
    else c :: strftimeChars t rest

/-- Python `t.strftime(pattern)` for the patterns of `TIME_PATTERNS`:
`%`-directives are expanded, other characters are copied literally. -/
def strftime (t : DateTime) (pattern : String) : String :=
  String.mk (strftimeChars t pattern.data)

/-! ### The data model of tarsnap_prune.py -/

/-- The `TIME_PATTERNS` table of tarsnap_prune.py: granularity tag to
strftime bucket pattern. -/
def TIME_PATTERNS : List (String × String) :=
  [("s", "%Y-%m-%d %H:%M:%S"),
   ("min", "%Y-%m-%d %H:%M"),
   ("h", "%Y-%m-%d %H"),
   ("d", "%Y-%m-%d"),
   ("w", "%G-%V"),
   ("mon", "%Y-%m"),
   ("y", "%Y")]

/-- `TIME_PATTERNS[key]` as a lookup. -/
def timePatternsLookup (k : String) : Option String :=
  (TIME_PATTERNS.find? (fun p => p.1 == k)).map (·.2)

/-- The `@dataclass Archive` of tarsnap_prune.py. -/
structure Archive where
  name : String
  timestamp : DateTime
deriving DecidableEq, Repr

/-- The `@dataclass KeepSpec` of tarsnap_prune.py. -/
structure KeepSpec where
  timepattern : String
  num : Nat
deriving DecidableEq, Repr

/-! ### The retention selector -/

/-- The loop of `arc_names_to_keep`, with loop state `n` (periods kept so
far) and `prev_ts` (bucket key of the last yielded archive, `none` before
the first yield). -/
def arcNamesToKeepAux (ks : KeepSpec) : List Archive → Nat → Option String → List String
  | [], _, _ => []
  | arc :: arcs, n, prev_ts =>
    if n = ks.num then []
    else
      let ts := strftime arc.timestamp ks.timepattern
      if some ts ≠ prev_ts then arc.name :: arcNamesToKeepAux ks arcs (n + 1) (some ts)
      else arcNamesToKeepAux ks arcs n prev_ts

/-- `arc_names_to_keep(arcs, ks)` of tarsnap_prune.py (the generator's yields
as a list). Docstring precondition: `arcs` is sorted in descending order by
timestamp. -/
def arc_names_to_keep (arcs : List Archive) (ks : KeepSpec) : List String :=
  arcNamesToKeepAux ks arcs 0 none

/-- The same loop as `arcNamesToKeepAux`, recording the kept `Archive`
records rather than their names (for stating bucket/timestamp properties). -/
def keptAux (ks : KeepSpec) : List Archive → Nat → Option String → List Archive
  | [], _, _ => []
  | arc :: arcs, n, prev_ts =>
    if n = ks.num then []
    else
      let ts := strftime arc.timestamp ks.timepattern
      if some ts ≠ prev_ts then arc :: keptAux ks arcs (n + 1) (some ts)
      else keptAux ks arcs n prev_ts

def keptArcs (arcs : List Archive) (ks : KeepSpec) : List Archive :=
  keptAux ks arcs 0 none

/-- Stable insertion for descending order: `a` is placed before the first
element whose timestamp is strictly smaller, hence after all earlier
elements with an equal timestamp. -/
def insertDesc (a : Archive) : List Archive → List Archive
  | [] => [a]
  | b :: l => if dtLt b.timestamp a.timestamp then a :: b :: l else b :: insertDesc a l

/-- `arcs.sort(key=attrgetter('timestamp'), reverse=True)`: Python's sort is
stable, and with `reverse=True` equal-key elements keep their original
relative order; a left-to-right stable insertion sort computes the same
list. -/
def sortArcsDesc (arcs : List Archive) : List Archive :=
  arcs.foldl (fun acc a => insertDesc a acc) []

/-- `arc_names_to_delete(arcs, kss)` of tarsnap_prune.py. The function first
sorts `arcs` in place; the first component is the final state of that list,
the second the yielded names. The Python `set` `keep` is modelled by a list
used only through membership. -/
def arcNamesToDeleteRun (arcs : List Archive) (kss : List KeepSpec) :
    List Archive × List String :=
  let sorted := sortArcsDesc arcs
  let keep := kss.foldl (fun keep ks => keep ++ arc_names_to_keep sorted ks) []
  (sorted, (sorted.filter (fun arc => !(decide (arc.name ∈ keep)))).map Archive.name)

/-- The yielded names of `arc_names_to_delete(arcs, kss)`. -/
def arc_names_to_delete (arcs : List Archive) (kss : List KeepSpec) : List String :=
  (arcNamesToDeleteRun arcs kss).2

/-! ### Listing parsing (`parse_arcs`) and grouping (`NAME_RE`) -/

/-- `str.split(sep)` for a one-character separator, keeping empty pieces
(`"".split(sep) == ['']`). -/
def splitOnChar (sep : Char) : List Char → List (List Char)
  | [] => [[]]
  | c :: cs =>
    if c = sep then [] :: splitOnChar sep cs
    else
      match splitOnChar sep cs with
      | [] => [[c]]
      | l :: ls => (c :: l) :: ls

/-- `str.splitlines()` with `'\n'` as the line terminator: one line per
terminator plus a final unterminated line if nonempty
(`"".splitlines() == []`, `"a\n".splitlines() == ['a']`). -/
def pySplitlines : List Char → List (List Char)
  | [] => []
  | c :: cs =>
    if c = '\n' then [] :: pySplitlines cs
    else
      match pySplitlines cs with
      | [] => [[c]]
      | l :: ls => (c :: l) :: ls

/-- `line.rstrip('\n')`. -/
def rstripNL (l : List Char) : List Char := (l.reverse.dropWhile (· = '\n')).reverse

/-- Digit-run value, `int(...)` of an ASCII digit string. -/
def natOfDigits (ds : List Char) : Nat :=
  ds.foldl (fun n c => 10 * n + (c.toNat - '0'.toNat)) 0

/-- Read a leading decimal field as Python `_strptime` does: the regex
alternations for each numeric directive amount to accepting a maximal digit
run of width `minW..maxW` whose value lies in `lo..hi` (the delimiter
following each field is never a digit, so maximal munch is equivalent to the
regex's backtracking). -/
def readNum (minW maxW lo hi : Nat) (l : List Char) : Option (Nat × List Char) :=
  let ds := l.takeWhile Char.isDigit
  let rest := l.dropWhile Char.isDigit
  if minW ≤ ds.length ∧ ds.length ≤ maxW ∧ lo ≤ natOfDigits ds ∧ natOfDigits ds ≤ hi then
    some (natOfDigits ds, rest)
  else none

def expectChar (c : Char) : List Char → Option (List Char)
  | [] => none
  | x :: xs => if x = c then some xs else none

/-- Whitespace in a `_strptime` format matches `\s+`; within a single listing
line (no tabs or line terminators remain) that is a run of spaces. -/
def expectSpaces : List Char → Option (List Char)
  | ' ' :: xs => some (xs.dropWhile (· = ' '))
  | _ => none

/-- Python `datetime.strptime(ts_str, "%Y-%m-%d %H:%M:%S")`: `%Y` is exactly
four digits, the other fields one or two digits within their regex ranges,
then the `datetime` constructor checks `1 <= year` and
`day <= _days_in_month(year, month)`. -/
def strptimeTS (s : List Char) : Option DateTime := do
  let (y, s) ← readNum 4 4 0 9999 s
  let s ← expectChar '-' s
  let (mo, s) ← readNum 1 2 1 12 s
  let s ← expectChar '-' s
  let (d, s) ← readNum 1 2 1 31 s
  let s ← expectSpaces s
  let (h, s) ← readNum 1 2 0 23 s
  let s ← expectChar ':' s
  let (mi, s) ← readNum 1 2 0 59 s
  let s ← expectChar ':' s
  let (sec, s) ← readNum 1 2 0 59 s
  if s = [] ∧ 1 ≤ y ∧ d ≤ daysInMonth y mo then
    some ⟨y, mo, d, h, mi, sec⟩
  else none

/-- Is `c` in the character class `[0-9-]` of `NAME_RE`? -/
def isNameRunChar (c : Char) : Bool := c.isDigit || c = '-'

/-- Does a remainder match the optional group `(?:-[0-9-]*)?` of `NAME_RE`
to the end of the string (empty, or a dash followed by digits and dashes)? -/
def nameSuffixOk (l : List Char) : Bool :=
  match l with
  | [] => true
  | c :: cs => c = '-' && cs.all isNameRunChar

/-- `NAME_RE.fullmatch(name)` for `NAME_RE = (.*?)(?:-[0-9-]*)?`, returning
group 1: the lazy `(.*?)` keeps the shortest prefix whose remainder matches
the optional trailing group, and `.` does not match `'\n'`. -/
def nameREGroup1 (l : List Char) : Option (List Char) :=
  if nameSuffixOk l then some []
  else
    match l with
    | [] => none
    | c :: cs => if c = '\n' then none else (nameREGroup1 cs).map (c :: ·)

/-- `defaultdict(list)` keyed by base name: append `a` to the family of `k`,
creating the family on first use (Python dicts preserve insertion order). -/
def dictAppend : List (String × List Archive) → String → Archive → List (String × List Archive)
  | [], k, a => [(k, [a])]
  | (k', l) :: rest, k, a =>
    if k' = k then (k', l ++ [a]) :: rest else (k', l) :: dictAppend rest k a

/-- `d[k]` with `[]` for an absent family. -/
def dictLookup (d : List (String × List Archive)) (k : String) : List Archive :=
  match d.find? (fun p => p.1 == k) with
  | some p => p.2
  | none => []

/-- The exceptions `parse_arcs` can raise: `ValueError` from tuple unpacking
or `strptime` (the spec's `InvalidListingLine`, carrying the offending
line), and the `RuntimeError` of the `m is None` branch. -/
inductive ListingError where
  | invalidLine (line : String)
  | nameMatchFailure (line : String)
deriving DecidableEq, Repr

/-- The loop of `parse_arcs`: split each line on tabs into exactly two
fields, parse the timestamp, match `NAME_RE` against the name, and append
the archive to its base name's family; the first malformed line aborts the
whole parse. -/
def parseArcsAux : List (List Char) → List (String × List Archive) →
    Except ListingError (List (String × List Archive))
  | [], result => .ok result
  | line :: rest, result =>
    let line := rstripNL line
    match splitOnChar '\t' line with
    | [name, ts_str] =>
      match strptimeTS ts_str with
      | none => .error (.invalidLine (String.mk line))
      | some ts =>
        match nameREGroup1 name with
        | none => .error (.nameMatchFailure (String.mk line))
        | some base =>
          parseArcsAux rest (dictAppend result (String.mk base) ⟨String.mk name, ts⟩)
    | _ => .error (.invalidLine (String.mk line))

/-- `parse_arcs(listing)` of tarsnap_prune.py. -/
def parse_arcs (listing : String) : Except ListingError (List (String × List Archive)) :=
  parseArcsAux (pySplitlines listing.data) []

/-- Does one line satisfy `parse_arcs`' per-line requirements (exactly two
tab-separated fields, parseable timestamp)? -/
def lineOk (line : List Char) : Bool :=
  match splitOnChar '\t' (rstripNL line) with
  | [_, ts_str] => (strptimeTS ts_str).isSome
  | _ => false

/-- The archive record a well-formed line denotes (for stating grouping
properties of `parse_arcs`). -/
def lineArc (line : List Char) : Option Archive :=
  match splitOnChar '\t' (rstripNL line) with
  | [name, ts_str] =>
    match strptimeTS ts_str, nameREGroup1 name with
    | some ts, some _ => some ⟨String.mk name, ts⟩
    | _, _ => none
  | _ => none

/-- The base name a well-formed line's archive is grouped under. -/
def lineBase (line : List Char) : Option String :=
  match splitOnChar '\t' (rstripNL line) with
  | [name, _] => (nameREGroup1 name).map String.mk
  | _ => none

/-! ### Spec-side base-name derivation (for the refinement claim about
`NAME_RE`) -/

/-- Modelled from the spec's words: does `t` have the form `-[0-9-]*`
(a dash followed by digits and dashes only)? -/
def isTrailRun (t : List Char) : Bool :=
  match t with
  | [] => false
  | c :: cs => c = '-' && cs.all isNameRunChar

/-- Modelled from the spec's words: the name with an optional trailing run
of the form `-[0-9-]*` (anchored at the end of the string, the longest such
run) removed; the name itself when no such suffix exists. -/
def specBaseName (s : List Char) : List Char :=
  match (List.range s.length).find? (fun i => isTrailRun (s.drop i)) with
  | some i => s.take i
  | none => s

/-! ### Keep-spec parsing -/

/-- `KEEP_SPEC_PATTERN.fullmatch(s)` for
`KEEP_SPEC_PATTERN = (\d+)(s|min|h|d|w|mon|y)`: a nonempty digit run
followed by exactly one granularity tag (tags contain no digits, so the
split is the maximal digit prefix), giving
`KeepSpec(TIME_PATTERNS[tag], int(digits))`. -/
def keepTokMatch (tok : List Char) : Option KeepSpec :=
  let ds := tok.takeWhile Char.isDigit
  let rest := tok.dropWhile Char.isDigit
  if ds = [] then none
  else
    match timePatternsLookup (String.mk rest) with
    | some pat => some ⟨pat, natOfDigits ds⟩
    | none => none

/-- The loop of `parse_keep_specs`: the first token failing the pattern
aborts with `RuntimeError` (the spec's `InvalidKeepSpec`), modelled as the
offending token. -/
def parseKeepSpecsAux : List (List Char) → Except String (List KeepSpec)
  | [] => .ok []
  | tok :: rest =>
    match keepTokMatch tok with
    | some ks => (parseKeepSpecsAux rest).map (ks :: ·)
    | none => .error (String.mk tok)

/-- `parse_keep_specs(spec)` of tarsnap_prune.py. -/
def parse_keep_specs (spec : String) : Except String (List KeepSpec) :=
  parseKeepSpecsAux (splitOnChar ',' spec.data)

/-! ### Specification-level notions used in theorem statements -/

/-- The docstring precondition of `arc_names_to_keep`: sorted in descending
order by timestamp (non-increasing timestamps). -/
def SortedDesc (arcs : List Archive) : Prop :=
  List.Pairwise (fun a b => dtLe b.timestamp a.timestamp) arcs

instance (arcs : List Archive) : Decidable (SortedDesc arcs) := by
  unfold SortedDesc; infer_instance

/-- The base name an archive name is grouped under (`NAME_RE` group 1). -/
def baseOfName (name : String) : String :=
  String.mk ((nameREGroup1 name.data).getD name.data)

/-- A bucket pattern is interval-like: between two timestamps with equal
keys, every timestamp has that same key. This is the property of the seven
`TIME_PATTERNS` patterns that makes the `prev_ts` comparison of
`arc_names_to_keep` sufficient on descending-sorted input. -/
def PatternBetween (pattern : String) : Prop :=
  ∀ t1 t2 t3 : DateTime, t1.Valid → t2.Valid → t3.Valid →
    dtLe t3 t2 → dtLe t2 t1 →
    strftime t1 pattern = strftime t3 pattern →
    strftime t2 pattern = strftime t1 pattern

/-! ## Theorems -/

/-! ### Fixed-width decimal rendering is injective -/

theorem digitChar_inj : ∀ a < 10, ∀ b < 10, Nat.digitChar a = Nat.digitChar b → a = b := by
  decide

theorem pad2Chars_length (n : Nat) : (pad2Chars n).length = 2 := rfl

theorem pad4Chars_length (n : Nat) : (pad4Chars n).length = 4 := rfl

theorem pad2Chars_inj {a b : Nat} (ha : a ≤ 99) (hb : b ≤ 99)
    (h : pad2Chars a = pad2Chars b) : a = b := by
  simp only [pad2Chars, List.cons.injEq, and_true] at h
  have h1 := digitChar_inj (a / 10 % 10) (Nat.mod_lt _ (by omega)) (b / 10 % 10)
    (Nat.mod_lt _ (by omega)) h.1
  have h2 := digitChar_inj (a % 10) (Nat.mod_lt _ (by omega)) (b % 10)
    (Nat.mod_lt _ (by omega)) h.2
  omega

theorem pad4Chars_inj {a b : Nat} (ha : a ≤ 9999) (hb : b ≤ 9999)
    (h : pad4Chars a = pad4Chars b) : a = b := by
  simp only [pad4Chars, List.cons.injEq, and_true] at h
  have h1 := digitChar_inj (a / 1000 % 10) (Nat.mod_lt _ (by omega)) (b / 1000 % 10)
    (Nat.mod_lt _ (by omega)) h.1
  have h2 := digitChar_inj (a / 100 % 10) (Nat.mod_lt _ (by omega)) (b / 100 % 10)
    (Nat.mod_lt _ (by omega)) h.2.1
  have h3 := digitChar_inj (a / 10 % 10) (Nat.mod_lt _ (by omega)) (b / 10 % 10)
    (Nat.mod_lt _ (by omega)) h.2.2.1
  have h4 := digitChar_inj (a % 10) (Nat.mod_lt _ (by omega)) (b % 10)
    (Nat.mod_lt _ (by omega)) h.2.2.2
  omega

/-! ### Calendar arithmetic -/

theorem daysBeforeYear_succ (y : Int) :
    daysBeforeYear y + 365 ≤ daysBeforeYear (y + 1) ∧
    daysBeforeYear (y + 1) ≤ daysBeforeYear y + 366 := by
  unfold daysBeforeYear
  omega

theorem daysBeforeYear_mono : StrictMono daysBeforeYear := by
  apply strictMono_int_of_lt_succ
  intro y
  have := daysBeforeYear_succ y
  omega

theorem daysBeforeMonthTable_nonneg (m : Nat) : 0 ≤ daysBeforeMonthTable m := by
  unfold daysBeforeMonthTable
  split <;> norm_num

/-- The exact year-length identity behind the Gregorian ordinal formula. -/
theorem daysBeforeYear_succ_eq (y : Nat) :
    daysBeforeYear ((y : Int) + 1) =
      daysBeforeYear y + 365 + (if isLeap y then 1 else 0) := by
  unfold daysBeforeYear isLeap
  split
  · rename_i hL
    simp only [Bool.and_eq_true, decide_eq_true_eq, Bool.or_eq_true,
      bne_iff_ne, ne_eq] at hL
    omega
  · rename_i hL
    simp only [Bool.and_eq_true, decide_eq_true_eq, Bool.or_eq_true,
      bne_iff_ne, ne_eq, not_and, not_or, not_not] at hL
    omega

/-- Days before a month plus a day of that month never exceed the year. -/
theorem daysBeforeMonth_day_le (y m d : Nat) (hm1 : 1 ≤ m) (hm2 : m ≤ 12)
    (hd : d ≤ daysInMonth y m) :
    daysBeforeMonth y m + (d : Int) ≤ 365 + (if isLeap y then 1 else 0) := by
  interval_cases m <;>
    simp only [daysInMonth, daysBeforeMonth, daysBeforeMonthTable] at hd ⊢ <;>
    split_ifs at hd ⊢ <;>
    first
    | omega
    | simp_all

/-- Range of a valid date's ordinal within its year: between January 1 and
December 31 (the day before January 1 of the next year). -/
theorem toOrdinal_range (t : DateTime) (hv : t.Valid) :
    daysBeforeYear t.year + 1 ≤ toOrdinal t ∧
    toOrdinal t ≤ daysBeforeYear ((t.year : Int) + 1) := by
  obtain ⟨hy1, hy2, hm1, hm2, hd1, hd2, -⟩ := hv
  have htab := daysBeforeMonthTable_nonneg t.month
  have hdiff := daysBeforeYear_succ_eq t.year
  have hdm := daysBeforeMonth_day_le t.year t.month t.day hm1 hm2 hd2
  unfold toOrdinal
  unfold daysBeforeMonth at hdm ⊢
  rw [hdiff]
  split_ifs at hdm ⊢ <;> omega

/-- `isoweek1monday year` is a Monday (ordinal residue 1 mod 7) within three
days of January 1 of `year`. -/
theorem isoweek1monday_bounds (y : Int) :
    daysBeforeYear y + 1 - 3 ≤ isoweek1monday y ∧
    isoweek1monday y ≤ daysBeforeYear y + 1 + 3 ∧
    (isoweek1monday y - 1) % 7 = 0 := by
  simp only [isoweek1monday]
  split_ifs <;> omega

/-- Consecutive ISO week-1 Mondays are 52 or 53 weeks apart. -/
theorem isoweek1monday_succ (y : Int) :
    isoweek1monday (y + 1) - isoweek1monday y = 364 ∨
    isoweek1monday (y + 1) - isoweek1monday y = 371 := by
  have h1 := daysBeforeYear_succ y
  have h2 := isoweek1monday_bounds y
  have h3 := isoweek1monday_bounds (y + 1)
  omega

theorem isoweek1monday_mono : StrictMono isoweek1monday := by
  apply strictMono_int_of_lt_succ
  intro y
  have := isoweek1monday_succ y
  omega

/-! ### Characterizing `isocalendar` by the Monday of the ISO week -/

theorem isocalendar_eq_neg (t : DateTime)
    (h : toOrdinal t < isoweek1monday t.year) :
    isocalendar t =
      ((t.year : Int) - 1, (toOrdinal t - isoweek1monday ((t.year : Int) - 1)) / 7 + 1) := by
  have h' : (toOrdinal t - isoweek1monday (t.year : Int)) / 7 < 0 := by omega
  simp [isocalendar, h']

theorem isocalendar_eq_hi (t : DateTime)
    (_h1 : ¬ toOrdinal t < isoweek1monday t.year)
    (h2 : 52 ≤ (toOrdinal t - isoweek1monday t.year) / 7)
    (h3 : isoweek1monday ((t.year : Int) + 1) ≤ toOrdinal t) :
    isocalendar t = ((t.year : Int) + 1, 1) := by
  have h1' : ¬ (toOrdinal t - isoweek1monday (t.year : Int)) / 7 < 0 := by omega
  simp [isocalendar, h1', h2, h3]

theorem isocalendar_eq_mid (t : DateTime)
    (h1' : ¬ toOrdinal t < isoweek1monday t.year)
    (h2 : ¬ (52 ≤ (toOrdinal t - isoweek1monday t.year) / 7 ∧
      isoweek1monday ((t.year : Int) + 1) ≤ toOrdinal t)) :
    isocalendar t =
      ((t.year : Int), (toOrdinal t - isoweek1monday t.year) / 7 + 1) := by
  have h1' : ¬ (toOrdinal t - isoweek1monday (t.year : Int)) / 7 < 0 := by omega
  by_cases h52 : 52 ≤ (toOrdinal t - isoweek1monday (t.year : Int)) / 7
  · have h3 : ¬ isoweek1monday ((t.year : Int) + 1) ≤ toOrdinal t := by tauto
    simp [isocalendar, h1', h52, h3]
  · simp [isocalendar, h1', h52]

/-- The pair computed by `isocalendar` locates the Monday of the date's ISO
week between the week-1 Mondays of the ISO year and its successor, with the
week number counting whole weeks from the former; together with the
resulting bounds on the ISO year and week number. -/
theorem isocal_char (t : DateTime) (hv : t.Valid) :
    isoweek1monday (isocalendar t).1 ≤ mondayOf (toOrdinal t) ∧
    mondayOf (toOrdinal t) < isoweek1monday ((isocalendar t).1 + 1) ∧
    (isocalendar t).2 = (mondayOf (toOrdinal t) - isoweek1monday (isocalendar t).1) / 7 + 1 ∧
    1 ≤ (isocalendar t).1 ∧ (isocalendar t).1 ≤ 9999 ∧
    1 ≤ (isocalendar t).2 ∧ (isocalendar t).2 ≤ 53 := by
  have hy1 : 1 ≤ t.year := hv.1
  have hy9 : t.year ≤ 9999 := hv.2.1
  have hr := toOrdinal_range t hv
  have hb1 := isoweek1monday_bounds (t.year : Int)
  have hb2 := isoweek1monday_bounds ((t.year : Int) + 1)
  by_cases hneg : toOrdinal t < isoweek1monday t.year
  · -- first branch of `isocalendar`: the date is in the final week of year-1
    by_cases hone : t.year = 1
    · exfalso
      have e1 : isoweek1monday ((1 : Nat) : Int) = 1 := by decide
      have e2 : daysBeforeYear ((1 : Nat) : Int) = 0 := by decide
      rw [hone] at hneg hr
      omega
    · rw [isocalendar_eq_neg t hneg]
      dsimp only
      rw [show (t.year : Int) - 1 + 1 = (t.year : Int) from by ring]
      have hbm1 := isoweek1monday_bounds ((t.year : Int) - 1)
      have hdm1 := isoweek1monday_succ ((t.year : Int) - 1)
      rw [show (t.year : Int) - 1 + 1 = (t.year : Int) from by ring] at hdm1
      have hsm1 := daysBeforeYear_succ ((t.year : Int) - 1)
      rw [show (t.year : Int) - 1 + 1 = (t.year : Int) from by ring] at hsm1
      simp only [mondayOf]
      omega
  · by_cases hhi : 52 ≤ (toOrdinal t - isoweek1monday t.year) / 7 ∧
        isoweek1monday ((t.year : Int) + 1) ≤ toOrdinal t
    · -- second branch: the date is in week 1 of year+1
      by_cases hlast : t.year = 9999
      · exfalso
        have e1 : daysBeforeYear (((9999 : Nat) : Int) + 1) <
            isoweek1monday (((9999 : Nat) : Int) + 1) := by decide
        rw [hlast] at hhi hr
        omega
      · rw [isocalendar_eq_hi t hneg hhi.1 hhi.2]
        dsimp only
        have hd1 := isoweek1monday_succ (t.year : Int)
        have hd2 := isoweek1monday_succ ((t.year : Int) + 1)
        have hs2 := daysBeforeYear_succ ((t.year : Int) + 1)
        have hb3 := isoweek1monday_bounds ((t.year : Int) + 1 + 1)
        simp only [mondayOf]
        omega
    · -- third branch: the date is in week `week+1` of its own year
      rw [isocalendar_eq_mid t hneg hhi]
      dsimp only
      have hd1 := isoweek1monday_succ (t.year : Int)
      simp only [mondayOf]
      omega

/-- Two valid dates get the same `isocalendar` pair exactly when they lie in
the same ISO week (same week Monday). -/
theorem isocalendar_eq_iff (t t' : DateTime) (hv : t.Valid) (hv' : t'.Valid) :
    isocalendar t = isocalendar t' ↔
      mondayOf (toOrdinal t) = mondayOf (toOrdinal t') := by
  have hc := isocal_char t hv
  have hc' := isocal_char t' hv'
  have hm : (mondayOf (toOrdinal t) - 1) % 7 = 0 := by
    simp only [mondayOf]; omega
  have hm' : (mondayOf (toOrdinal t') - 1) % 7 = 0 := by
    simp only [mondayOf]; omega
  constructor
  · intro h
    rw [h] at hc
    have hw := (isoweek1monday_bounds (isocalendar t').1).2.2
    omega
  · intro h
    have h1 : (isocalendar t).1 = (isocalendar t').1 := by
      by_contra hne
      rcases lt_or_gt_of_ne hne with hlt | hlt
      · have hmono := isoweek1monday_mono.le_iff_le.mpr
          (by omega : (isocalendar t).1 + 1 ≤ (isocalendar t').1)
        omega
      · have hmono := isoweek1monday_mono.le_iff_le.mpr
          (by omega : (isocalendar t').1 + 1 ≤ (isocalendar t).1)
        omega
    have h2 : (isocalendar t).2 = (isocalendar t').2 := by
      rw [h1] at hc
      omega
    exact Prod.ext h1 h2

theorem daysInMonth_le (y m : Nat) : daysInMonth y m ≤ 31 := by
  unfold daysInMonth
  split_ifs <;> omega

/-- The month table grows by at least the length of each month. -/
theorem daysBeforeMonth_lt (y m m' : Nat) (hm1 : 1 ≤ m) (hm12 : m ≤ 12)
    (hm12' : m' ≤ 12) (h : m < m') :
    daysBeforeMonth y m + (daysInMonth y m : Int) ≤ daysBeforeMonth y m' := by
  interval_cases m <;> interval_cases m' <;>
    simp_all [daysBeforeMonth, daysBeforeMonthTable, daysInMonth] <;>
    split_ifs <;> omega

/-- Python `datetime` order agrees with the Gregorian ordinal on the date
part: an earlier timestamp never has a later ordinal. -/
theorem toOrdinal_le (t t' : DateTime) (hv : t.Valid) (hv' : t'.Valid)
    (h : dtLe t t') : toOrdinal t ≤ toOrdinal t' := by
  have hvc := hv
  have hvc' := hv'
  obtain ⟨hy1, hy9, hm1, hm12, hd1, hdim, -⟩ := hvc
  obtain ⟨hy1', hy9', hm1', hm12', hd1', hdim', -⟩ := hvc'
  unfold dtLe at h
  by_cases hy : t.year < t'.year
  · have h1 : toOrdinal t ≤ daysBeforeYear ((t.year : Int) + 1) := (toOrdinal_range t hv).2
    have h2 : daysBeforeYear (t'.year : Int) + 1 ≤ toOrdinal t' := (toOrdinal_range t' hv').1
    have h3 : daysBeforeYear ((t.year : Int) + 1) ≤ daysBeforeYear (t'.year : Int) :=
      daysBeforeYear_mono.le_iff_le.mpr (by omega)
    omega
  · have hyy : t.year = t'.year := by omega
    by_cases hm : t.month < t'.month
    · have hstep := daysBeforeMonth_lt t.year t.month t'.month hm1 hm12 hm12' hm
      unfold toOrdinal
      rw [hyy] at hstep hdim ⊢
      omega
    · have hmm : t.month = t'.month := by omega
      unfold toOrdinal
      rw [hyy, hmm]
      omega

/-! ### The seven bucket patterns: injectivity on valid dates and the
interval property -/

theorem pad4_append_inj {a b : Nat} {l l' : List Char}
    (h : pad4Chars a ++ l = pad4Chars b ++ l') : pad4Chars a = pad4Chars b ∧ l = l' :=
  List.append_inj h rfl

theorem pad2_append_inj {a b : Nat} {l l' : List Char}
    (h : pad2Chars a ++ l = pad2Chars b ++ l') : pad2Chars a = pad2Chars b ∧ l = l' :=
  List.append_inj h rfl

theorem strftime_y_data (t : DateTime) :
    (strftime t "%Y").data = pad4Chars t.year := rfl

theorem strftime_mon_data (t : DateTime) :
    (strftime t "%Y-%m").data = pad4Chars t.year ++ '-' :: pad2Chars t.month := rfl

theorem strftime_d_data (t : DateTime) :
    (strftime t "%Y-%m-%d").data =
      pad4Chars t.year ++ '-' :: (pad2Chars t.month ++ '-' :: pad2Chars t.day) := rfl

theorem strftime_h_data (t : DateTime) :
    (strftime t "%Y-%m-%d %H").data =
      pad4Chars t.year ++ '-' :: (pad2Chars t.month ++ '-' ::
        (pad2Chars t.day ++ ' ' :: pad2Chars t.hour)) := rfl

theorem strftime_min_data (t : DateTime) :
    (strftime t "%Y-%m-%d %H:%M").data =
      pad4Chars t.year ++ '-' :: (pad2Chars t.month ++ '-' ::
        (pad2Chars t.day ++ ' ' :: (pad2Chars t.hour ++ ':' :: pad2Chars t.minute))) := rfl

theorem strftime_s_data (t : DateTime) :
    (strftime t "%Y-%m-%d %H:%M:%S").data =
      pad4Chars t.year ++ '-' :: (pad2Chars t.month ++ '-' ::
        (pad2Chars t.day ++ ' ' :: (pad2Chars t.hour ++ ':' ::
          (pad2Chars t.minute ++ ':' :: pad2Chars t.second)))) := rfl

theorem strftime_w_data (t : DateTime) :
    (strftime t "%G-%V").data =
      pad4Chars (isocalendar t).1.toNat ++ '-' :: pad2Chars (isocalendar t).2.toNat := rfl

/-- On valid dates the `%Y` key determines the year. -/
theorem strftime_y_inj (t t' : DateTime) (hv : t.Valid) (hv' : t'.Valid) :
    strftime t "%Y" = strftime t' "%Y" ↔ t.year = t'.year := by
  constructor
  · intro h
    have hd := congrArg String.data h
    rw [strftime_y_data, strftime_y_data] at hd
    exact pad4Chars_inj hv.2.1 hv'.2.1 hd
  · intro h
    exact String.ext (by rw [strftime_y_data, strftime_y_data, h])

/-- On valid dates the `%Y-%m` key determines year and month. -/
theorem strftime_mon_inj (t t' : DateTime) (hv : t.Valid) (hv' : t'.Valid) :
    strftime t "%Y-%m" = strftime t' "%Y-%m" ↔
      t.year = t'.year ∧ t.month = t'.month := by
  have hmo : t.month ≤ 12 := hv.2.2.2.1
  have hmo' : t'.month ≤ 12 := hv'.2.2.2.1
  constructor
  · intro h
    have hd := congrArg String.data h
    rw [strftime_mon_data, strftime_mon_data] at hd
    obtain ⟨h4, hr⟩ := pad4_append_inj hd
    injection hr with _ hr
    exact ⟨pad4Chars_inj hv.2.1 hv'.2.1 h4,
      pad2Chars_inj (by omega : t.month ≤ 99) (by omega : t'.month ≤ 99) hr⟩
  · intro h
    exact String.ext (by rw [strftime_mon_data, strftime_mon_data, h.1, h.2])

/-- On valid dates the `%Y-%m-%d` key determines the calendar date. -/
theorem strftime_d_inj (t t' : DateTime) (hv : t.Valid) (hv' : t'.Valid) :
    strftime t "%Y-%m-%d" = strftime t' "%Y-%m-%d" ↔
      t.year = t'.year ∧ t.month = t'.month ∧ t.day = t'.day := by
  have hday : t.day ≤ 31 := le_trans hv.2.2.2.2.2.1 (daysInMonth_le _ _)
  have hday' : t'.day ≤ 31 := le_trans hv'.2.2.2.2.2.1 (daysInMonth_le _ _)
  have hmo : t.month ≤ 12 := hv.2.2.2.1
  have hmo' : t'.month ≤ 12 := hv'.2.2.2.1
  constructor
  · intro h
    have hd := congrArg String.data h
    rw [strftime_d_data, strftime_d_data] at hd
    obtain ⟨h4, hr⟩ := pad4_append_inj hd
    injection hr with _ hr
    obtain ⟨h2m, hr⟩ := pad2_append_inj hr
    injection hr with _ hr
    exact ⟨pad4Chars_inj hv.2.1 hv'.2.1 h4,
      pad2Chars_inj (by omega) (by omega) h2m,
      pad2Chars_inj (by omega) (by omega) hr⟩
  · intro h
    exact String.ext (by rw [strftime_d_data, strftime_d_data, h.1, h.2.1, h.2.2])

/-- On valid dates the `%Y-%m-%d %H` key determines date and hour. -/
theorem strftime_h_inj (t t' : DateTime) (hv : t.Valid) (hv' : t'.Valid) :
    strftime t "%Y-%m-%d %H" = strftime t' "%Y-%m-%d %H" ↔
      t.year = t'.year ∧ t.month = t'.month ∧ t.day = t'.day ∧ t.hour = t'.hour := by
  have hday : t.day ≤ 31 := le_trans hv.2.2.2.2.2.1 (daysInMonth_le _ _)
  have hday' : t'.day ≤ 31 := le_trans hv'.2.2.2.2.2.1 (daysInMonth_le _ _)
  have hmo : t.month ≤ 12 := hv.2.2.2.1
  have hmo' : t'.month ≤ 12 := hv'.2.2.2.1
  have hh : t.hour ≤ 23 := hv.2.2.2.2.2.2.1
  have hh' : t'.hour ≤ 23 := hv'.2.2.2.2.2.2.1
  constructor
  · intro h
    have hd := congrArg String.data h
    rw [strftime_h_data, strftime_h_data] at hd
    obtain ⟨h4, hr⟩ := pad4_append_inj hd
    injection hr with _ hr
    obtain ⟨h2m, hr⟩ := pad2_append_inj hr
    injection hr with _ hr
    obtain ⟨h2d, hr⟩ := pad2_append_inj hr
    injection hr with _ hr
    exact ⟨pad4Chars_inj hv.2.1 hv'.2.1 h4,
      pad2Chars_inj (by omega) (by omega) h2m,
      pad2Chars_inj (by omega) (by omega) h2d,
      pad2Chars_inj (by omega) (by omega) hr⟩
  · intro h
    exact String.ext
      (by rw [strftime_h_data, strftime_h_data, h.1, h.2.1, h.2.2.1, h.2.2.2])

/-- On valid dates the `%Y-%m-%d %H:%M` key determines date, hour, minute. -/
theorem strftime_min_inj (t t' : DateTime) (hv : t.Valid) (hv' : t'.Valid) :
    strftime t "%Y-%m-%d %H:%M" = strftime t' "%Y-%m-%d %H:%M" ↔
      t.year = t'.year ∧ t.month = t'.month ∧ t.day = t'.day ∧
      t.hour = t'.hour ∧ t.minute = t'.minute := by
  have hday : t.day ≤ 31 := le_trans hv.2.2.2.2.2.1 (daysInMonth_le _ _)
  have hday' : t'.day ≤ 31 := le_trans hv'.2.2.2.2.2.1 (daysInMonth_le _ _)
  have hmo : t.month ≤ 12 := hv.2.2.2.1
  have hmo' : t'.month ≤ 12 := hv'.2.2.2.1
  have hh : t.hour ≤ 23 := hv.2.2.2.2.2.2.1
  have hh' : t'.hour ≤ 23 := hv'.2.2.2.2.2.2.1
  have hmi : t.minute ≤ 59 := hv.2.2.2.2.2.2.2.1
  have hmi' : t'.minute ≤ 59 := hv'.2.2.2.2.2.2.2.1
  constructor
  · intro h
    have hd := congrArg String.data h
    rw [strftime_min_data, strftime_min_data] at hd
    obtain ⟨h4, hr⟩ := pad4_append_inj hd
    injection hr with _ hr
    obtain ⟨h2m, hr⟩ := pad2_append_inj hr
    injection hr with _ hr
    obtain ⟨h2d, hr⟩ := pad2_append_inj hr
    injection hr with _ hr
    obtain ⟨h2h, hr⟩ := pad2_append_inj hr
    injection hr with _ hr
    exact ⟨pad4Chars_inj hv.2.1 hv'.2.1 h4,
      pad2Chars_inj (by omega) (by omega) h2m,
      pad2Chars_inj (by omega) (by omega) h2d,
      pad2Chars_inj (by omega) (by omega) h2h,
      pad2Chars_inj (by omega) (by omega) hr⟩
  · intro h
    exact String.ext (by
      rw [strftime_min_data, strftime_min_data, h.1, h.2.1, h.2.2.1, h.2.2.2.1, h.2.2.2.2])

/-- On valid dates the `%Y-%m-%d %H:%M:%S` key determines the timestamp. -/
theorem strftime_s_inj (t t' : DateTime) (hv : t.Valid) (hv' : t'.Valid) :
    strftime t "%Y-%m-%d %H:%M:%S" = strftime t' "%Y-%m-%d %H:%M:%S" ↔
      t.year = t'.year ∧ t.month = t'.month ∧ t.day = t'.day ∧
      t.hour = t'.hour ∧ t.minute = t'.minute ∧ t.second = t'.second := by
  have hday : t.day ≤ 31 := le_trans hv.2.2.2.2.2.1 (daysInMonth_le _ _)
  have hday' : t'.day ≤ 31 := le_trans hv'.2.2.2.2.2.1 (daysInMonth_le _ _)
  have hmo : t.month ≤ 12 := hv.2.2.2.1
  have hmo' : t'.month ≤ 12 := hv'.2.2.2.1
  have hh : t.hour ≤ 23 := hv.2.2.2.2.2.2.1
  have hh' : t'.hour ≤ 23 := hv'.2.2.2.2.2.2.1
  have hmi : t.minute ≤ 59 := hv.2.2.2.2.2.2.2.1
  have hmi' : t'.minute ≤ 59 := hv'.2.2.2.2.2.2.2.1
  have hs : t.second ≤ 59 := hv.2.2.2.2.2.2.2.2
  have hs' : t'.second ≤ 59 := hv'.2.2.2.2.2.2.2.2
  constructor
  · intro h
    have hd := congrArg String.data h
    rw [strftime_s_data, strftime_s_data] at hd
    obtain ⟨h4, hr⟩ := pad4_append_inj hd
    injection hr with _ hr
    obtain ⟨h2m, hr⟩ := pad2_append_inj hr
    injection hr with _ hr
    obtain ⟨h2d, hr⟩ := pad2_append_inj hr
    injection hr with _ hr
    obtain ⟨h2h, hr⟩ := pad2_append_inj hr
    injection hr with _ hr
    obtain ⟨h2mi, hr⟩ := pad2_append_inj hr
    injection hr with _ hr
    exact ⟨pad4Chars_inj hv.2.1 hv'.2.1 h4,
      pad2Chars_inj (by omega) (by omega) h2m,
      pad2Chars_inj (by omega) (by omega) h2d,
      pad2Chars_inj (by omega) (by omega) h2h,
      pad2Chars_inj (by omega) (by omega) h2mi,
      pad2Chars_inj (by omega) (by omega) hr⟩
  · intro h
    exact String.ext (by
      rw [strftime_s_data, strftime_s_data, h.1, h.2.1, h.2.2.1, h.2.2.2.1,
        h.2.2.2.2.1, h.2.2.2.2.2])

/-- On valid dates the `%G-%V` key determines the `isocalendar` pair. -/
theorem strftime_w_inj (t t' : DateTime) (hv : t.Valid) (hv' : t'.Valid) :
    strftime t "%G-%V" = strftime t' "%G-%V" ↔ isocalendar t = isocalendar t' := by
  have hc := isocal_char t hv
  have hc' := isocal_char t' hv'
  constructor
  · intro h
    have hd := congrArg String.data h
    rw [strftime_w_data, strftime_w_data] at hd
    obtain ⟨h4, hr⟩ := pad4_append_inj hd
    injection hr with _ hr
    have hG := pad4Chars_inj (by omega : (isocalendar t).1.toNat ≤ 9999)
      (by omega : (isocalendar t').1.toNat ≤ 9999) h4
    have hV := pad2Chars_inj (by omega : (isocalendar t).2.toNat ≤ 99)
      (by omega : (isocalendar t').2.toNat ≤ 99) hr
    exact Prod.ext (by omega) (by omega)
  · intro h
    exact String.ext (by rw [strftime_w_data, strftime_w_data, h])

/-! ### The interval property for each bucket pattern -/

theorem between_y : PatternBetween "%Y" := by
  intro t1 t2 t3 hv1 hv2 hv3 h32 h21 h13
  rw [strftime_y_inj t2 t1 hv2 hv1]
  rw [strftime_y_inj t1 t3 hv1 hv3] at h13
  unfold dtLe at h32 h21
  omega

theorem between_mon : PatternBetween "%Y-%m" := by
  intro t1 t2 t3 hv1 hv2 hv3 h32 h21 h13
  rw [strftime_mon_inj t2 t1 hv2 hv1]
  rw [strftime_mon_inj t1 t3 hv1 hv3] at h13
  unfold dtLe at h32 h21
  omega

theorem between_d : PatternBetween "%Y-%m-%d" := by
  intro t1 t2 t3 hv1 hv2 hv3 h32 h21 h13
  rw [strftime_d_inj t2 t1 hv2 hv1]
  rw [strftime_d_inj t1 t3 hv1 hv3] at h13
  unfold dtLe at h32 h21
  omega

theorem between_h : PatternBetween "%Y-%m-%d %H" := by
  intro t1 t2 t3 hv1 hv2 hv3 h32 h21 h13
  rw [strftime_h_inj t2 t1 hv2 hv1]
  rw [strftime_h_inj t1 t3 hv1 hv3] at h13
  unfold dtLe at h32 h21
  omega

theorem between_min : PatternBetween "%Y-%m-%d %H:%M" := by
  intro t1 t2 t3 hv1 hv2 hv3 h32 h21 h13
  rw [strftime_min_inj t2 t1 hv2 hv1]
  rw [strftime_min_inj t1 t3 hv1 hv3] at h13
  unfold dtLe at h32 h21
  omega

theorem between_s : PatternBetween "%Y-%m-%d %H:%M:%S" := by
  intro t1 t2 t3 hv1 hv2 hv3 h32 h21 h13
  rw [strftime_s_inj t2 t1 hv2 hv1]
  rw [strftime_s_inj t1 t3 hv1 hv3] at h13
  unfold dtLe at h32 h21
  omega

theorem between_w : PatternBetween "%G-%V" := by
  intro t1 t2 t3 hv1 hv2 hv3 h32 h21 h13
  rw [strftime_w_inj t2 t1 hv2 hv1]
  rw [strftime_w_inj t1 t3 hv1 hv3] at h13
  rw [isocalendar_eq_iff t2 t1 hv2 hv1]
  rw [isocalendar_eq_iff t1 t3 hv1 hv3] at h13
  have o32 := toOrdinal_le t3 t2 hv3 hv2 h32
  have o21 := toOrdinal_le t2 t1 hv2 hv1 h21
  simp only [mondayOf] at h13 ⊢
  omega

/-- Every pattern of the `TIME_PATTERNS` catalog is interval-like. -/
theorem patternBetween_of_mem (pat : String)
    (h : pat ∈ TIME_PATTERNS.map Prod.snd) : PatternBetween pat := by
  simp only [TIME_PATTERNS, List.map_cons, List.map_nil, List.mem_cons,
    List.not_mem_nil, or_false] at h
  rcases h with h | h | h | h | h | h | h <;> subst h
  · exact between_s
  · exact between_min
  · exact between_h
  · exact between_d
  · exact between_w
  · exact between_mon
  · exact between_y

/-! ### Order facts for `datetime` comparison -/

theorem dtLe_refl (a : DateTime) : dtLe a a := by unfold dtLe; omega

theorem dtLe_trans {a b c : DateTime} (h1 : dtLe a b) (h2 : dtLe b c) : dtLe a c := by
  unfold dtLe at *; omega

theorem dtLe_of_lt {a b : DateTime} (h : dtLt a b) : dtLe a b := by
  unfold dtLt at h; unfold dtLe; omega

theorem dtLe_of_not_lt {a b : DateTime} (h : ¬ dtLt a b) : dtLe b a := by
  unfold dtLt at h; unfold dtLe; omega

theorem not_lt_of_dtLe {a b : DateTime} (h : dtLe a b) : ¬ dtLt b a := by
  unfold dtLe at h; unfold dtLt; omega

/-! ### The selector loop: kept archives -/

/-- The name-yielding loop is the archive-recording loop followed by taking
names. -/
theorem arcNamesToKeepAux_eq_keptAux (ks : KeepSpec) :
    ∀ (arcs : List Archive) (n : Nat) (prev : Option String),
      arcNamesToKeepAux ks arcs n prev = (keptAux ks arcs n prev).map Archive.name := by
  intro arcs
  induction arcs with
  | nil => intro n prev; rfl
  | cons a rest ih =>
    intro n prev
    simp only [arcNamesToKeepAux, keptAux]
    split_ifs <;> simp [ih]

theorem arc_names_to_keep_eq_keptArcs (arcs : List Archive) (ks : KeepSpec) :
    arc_names_to_keep arcs ks = (keptArcs arcs ks).map Archive.name :=
  arcNamesToKeepAux_eq_keptAux ks arcs 0 none

/-- The loop never yields more than `ks.num - n` further names. -/
theorem keptAux_length (ks : KeepSpec) :
    ∀ (arcs : List Archive) (n : Nat) (prev : Option String), n ≤ ks.num →
      (keptAux ks arcs n prev).length + n ≤ ks.num := by
  intro arcs
  induction arcs with
  | nil =>
    intro n prev h
    simp only [keptAux, List.length_nil]
    omega
  | cons a rest ih =>
    intro n prev h
    simp only [keptAux]
    split_ifs with h1 h2
    · simpa using h
    · have := ih (n + 1) (some (strftime a.timestamp ks.timepattern)) (by omega)
      simp only [List.length_cons]
      omega
    · exact ih n prev h

/-- The kept archives form a sublist of the input. -/
theorem keptAux_sublist (ks : KeepSpec) :
    ∀ (arcs : List Archive) (n : Nat) (prev : Option String),
      (keptAux ks arcs n prev).Sublist arcs := by
  intro arcs
  induction arcs with
  | nil => intro n prev; simp [keptAux]
  | cons a rest ih =>
    intro n prev
    simp only [keptAux]
    split_ifs
    · exact List.nil_sublist _
    · exact List.Sublist.cons₂ a (ih _ _)
    · exact List.Sublist.cons a (ih _ _)

/-- Invariant for the `prev_ts` state: some already-seen timestamp `t0`, at
least as new as everything still to come, carries the previous bucket key. -/
def PrevGhost (ks : KeepSpec) (arcs : List Archive) (prev : Option String) : Prop :=
  ∀ p, prev = some p → ∃ t0 : DateTime, t0.Valid ∧
    strftime t0 ks.timepattern = p ∧ ∀ a ∈ arcs, dtLe a.timestamp t0

/-- On sorted valid input with an interval-like pattern, the kept archives
have pairwise-distinct bucket keys, none equal to the previous key. -/
theorem keptAux_keys_nodup (ks : KeepSpec) (hbet : PatternBetween ks.timepattern) :
    ∀ (arcs : List Archive) (n : Nat) (prev : Option String),
      SortedDesc arcs → (∀ a ∈ arcs, a.timestamp.Valid) →
      PrevGhost ks arcs prev →
      ((keptAux ks arcs n prev).map (fun a => strftime a.timestamp ks.timepattern)).Nodup ∧
      (∀ p, prev = some p →
        p ∉ (keptAux ks arcs n prev).map (fun a => strftime a.timestamp ks.timepattern)) := by
  intro arcs
  induction arcs with
  | nil => intro n prev _ _ _; simp [keptAux]
  | cons a rest ih =>
    intro n prev hsort hval hghost
    have hsort' : SortedDesc rest := hsort.of_cons
    have hval' : ∀ b ∈ rest, b.timestamp.Valid := fun b hb => hval b (List.mem_cons_of_mem _ hb)
    have hva : a.timestamp.Valid := hval a (List.mem_cons_self _ _)
    have hle : ∀ b ∈ rest, dtLe b.timestamp a.timestamp := by
      intro b hb
      exact (List.pairwise_cons.mp hsort).1 b hb
    simp only [keptAux]
    split_ifs with h1 h2
    · simp
    · -- yield branch: `a` is kept, prev becomes `a`'s key
      have hghost' : PrevGhost ks rest (some (strftime a.timestamp ks.timepattern)) := by
        intro p hp
        exact ⟨a.timestamp, hva, Option.some.inj hp, hle⟩
      have ihy := ih (n + 1) (some (strftime a.timestamp ks.timepattern)) hsort' hval' hghost'
      constructor
      · simp only [List.map_cons, List.nodup_cons]
        exact ⟨ihy.2 _ rfl, ihy.1⟩
      · intro p hp
        have hpa : strftime a.timestamp ks.timepattern ≠ p := by
          intro he
          exact h2 (by rw [hp, he])
        simp only [List.map_cons, List.mem_cons]
        rintro (he | hmem)
        · exact hpa he.symm
        · -- an archive in the tail shares the previous key: contradicts
          -- the interval property via the ghost timestamp
          obtain ⟨t0, hv0, hk0, hge0⟩ := hghost p hp
          simp only [List.mem_map] at hmem
          obtain ⟨b, hb, hkb⟩ := hmem
          have hbrest : b ∈ rest := (keptAux_sublist ks rest _ _).subset hb
          have hba : dtLe b.timestamp a.timestamp := hle b hbrest
          have hat0 : dtLe a.timestamp t0 := hge0 a (List.mem_cons_self _ _)
          have := hbet t0 a.timestamp b.timestamp hv0 hva (hval' b hbrest) hba hat0
            (by rw [hk0, hkb])
          exact hpa (this.trans hk0)
    · -- skip branch: `a` has the previous key and is dropped
      have hghost' : PrevGhost ks rest prev := by
        intro p hp
        obtain ⟨t0, hv0, hk0, hge0⟩ := hghost p hp
        exact ⟨t0, hv0, hk0, fun b hb => hge0 b (List.mem_cons_of_mem _ hb)⟩
      exact ih n prev hsort' hval' hghost'

/-- On sorted valid input with an interval-like pattern, every kept archive
is at least as new as every input archive sharing its bucket key. -/
theorem keptAux_newest (ks : KeepSpec) (hbet : PatternBetween ks.timepattern) :
    ∀ (arcs : List Archive) (n : Nat) (prev : Option String),
      SortedDesc arcs → (∀ a ∈ arcs, a.timestamp.Valid) →
      PrevGhost ks arcs prev →
      ∀ b ∈ keptAux ks arcs n prev, ∀ c ∈ arcs,
        strftime c.timestamp ks.timepattern = strftime b.timestamp ks.timepattern →
        dtLe c.timestamp b.timestamp := by
  intro arcs
  induction arcs with
  | nil => intro n prev _ _ _; simp [keptAux]
  | cons a rest ih =>
    intro n prev hsort hval hghost
    have hsort' : SortedDesc rest := hsort.of_cons
    have hval' : ∀ b ∈ rest, b.timestamp.Valid := fun b hb => hval b (List.mem_cons_of_mem _ hb)
    have hva : a.timestamp.Valid := hval a (List.mem_cons_self _ _)
    have hle : ∀ b ∈ rest, dtLe b.timestamp a.timestamp := by
      intro b hb
      exact (List.pairwise_cons.mp hsort).1 b hb
    simp only [keptAux]
    split_ifs with h1 h2
    · simp
    · -- yield branch
      have hghost' : PrevGhost ks rest (some (strftime a.timestamp ks.timepattern)) := by
        intro p hp
        exact ⟨a.timestamp, hva, Option.some.inj hp, hle⟩
      have hnodup := keptAux_keys_nodup ks hbet rest (n + 1)
        (some (strftime a.timestamp ks.timepattern)) hsort' hval' hghost'
      intro b hb c hc hkey
      rcases List.mem_cons.mp hb with rfl | hbrec
      · rcases List.mem_cons.mp hc with rfl | hcrest
        · exact dtLe_refl _
        · exact hle c hcrest
      · rcases List.mem_cons.mp hc with rfl | hcrest
        · -- `c = a` would share a key with a later-kept archive: impossible
          exfalso
          apply hnodup.2 (strftime c.timestamp ks.timepattern) rfl
          simp only [List.mem_map]
          exact ⟨b, hbrec, hkey.symm⟩
        · exact ih (n + 1) _ hsort' hval' hghost' b hbrec c hcrest hkey
    · -- skip branch
      have hghost' : PrevGhost ks rest prev := by
        intro p hp
        obtain ⟨t0, hv0, hk0, hge0⟩ := hghost p hp
        exact ⟨t0, hv0, hk0, fun b hb => hge0 b (List.mem_cons_of_mem _ hb)⟩
      have hnodup := keptAux_keys_nodup ks hbet rest n prev hsort' hval' hghost'
      intro b hb c hc hkey
      rcases List.mem_cons.mp hc with rfl | hcrest
      · -- `c = a` was skipped because its key equals `prev`; no kept archive
        -- has that key
        exfalso
        rcases prev with - | p
        · simp at h2
        · have hcp : strftime c.timestamp ks.timepattern = p := by
            simpa using h2
          apply hnodup.2 p rfl
          simp only [List.mem_map]
          exact ⟨b, hb, by rw [← hkey, hcp]⟩
      · exact ih n prev hsort' hval' hghost' b hb c hcrest hkey

/-! ### The stable descending sort -/

theorem insertDesc_perm (a : Archive) (l : List Archive) :
    (insertDesc a l).Perm (a :: l) := by
  induction l with
  | nil => simp [insertDesc]
  | cons b l ih =>
    simp only [insertDesc]
    split_ifs
    · exact List.Perm.refl _
    · exact (ih.cons b).trans (List.Perm.swap a b l)

theorem sortArcsDesc_perm (arcs : List Archive) : (sortArcsDesc arcs).Perm arcs := by
  suffices h : ∀ (l acc : List Archive),
      (List.foldl (fun acc a => insertDesc a acc) acc l).Perm (acc ++ l) by
    simpa using h arcs []
  intro l
  induction l with
  | nil => intro acc; simp
  | cons a l ih =>
    intro acc
    simp only [List.foldl_cons]
    refine (ih (insertDesc a acc)).trans ?_
    refine (((insertDesc_perm a acc).append_right l).trans ?_)
    exact List.perm_middle.symm

theorem insertDesc_sorted {a : Archive} {l : List Archive}
    (h : List.Pairwise (fun x y => dtLe y.timestamp x.timestamp) l) :
    List.Pairwise (fun x y => dtLe y.timestamp x.timestamp) (insertDesc a l) := by
  induction l with
  | nil => simp [insertDesc]
  | cons b l ih =>
    obtain ⟨hb, hl⟩ := List.pairwise_cons.mp h
    simp only [insertDesc]
    split_ifs with hlt
    · refine List.pairwise_cons.mpr ⟨?_, h⟩
      intro x hx
      rcases List.mem_cons.mp hx with rfl | hx
      · exact dtLe_of_lt hlt
      · exact dtLe_trans (hb x hx) (dtLe_of_lt hlt)
    · refine List.pairwise_cons.mpr ⟨?_, ih hl⟩
      intro x hx
      rcases List.mem_cons.mp ((insertDesc_perm a l).mem_iff.mp hx) with rfl | hx
      · exact dtLe_of_not_lt hlt
      · exact hb x hx

theorem sortArcsDesc_sorted (arcs : List Archive) : SortedDesc (sortArcsDesc arcs) := by
  suffices h : ∀ (l acc : List Archive),
      List.Pairwise (fun x y => dtLe y.timestamp x.timestamp) acc →
      List.Pairwise (fun x y => dtLe y.timestamp x.timestamp)
        (List.foldl (fun acc a => insertDesc a acc) acc l) by
    exact h arcs [] (List.Pairwise.nil)
  intro l
  induction l with
  | nil => intro acc h; simpa using h
  | cons a l ih =>
    intro acc h
    simp only [List.foldl_cons]
    exact ih (insertDesc a acc) (insertDesc_sorted h)

/-- Inserting an element no newer than anything in a sorted accumulator
appends it at the end. -/
theorem insertDesc_append {a : Archive} {acc : List Archive}
    (h : ∀ b ∈ acc, dtLe a.timestamp b.timestamp) :
    insertDesc a acc = acc ++ [a] := by
  induction acc with
  | nil => rfl
  | cons b acc ih =>
    simp only [insertDesc]
    rw [if_neg (not_lt_of_dtLe (h b (List.mem_cons_self _ _)))]
    simp only [List.cons_append, List.cons.injEq, true_and]
    exact ih fun x hx => h x (List.mem_cons_of_mem _ hx)

/-- Sorting an already descending-sorted list is the identity (so the
in-place sort is idempotent). -/
theorem sortArcsDesc_of_sorted {arcs : List Archive} (h : SortedDesc arcs) :
    sortArcsDesc arcs = arcs := by
  suffices haux : ∀ (l acc : List Archive),
      List.Pairwise (fun x y => dtLe y.timestamp x.timestamp) l →
      List.Pairwise (fun x y => dtLe y.timestamp x.timestamp) acc →
      (∀ b ∈ acc, ∀ c ∈ l, dtLe c.timestamp b.timestamp) →
      List.foldl (fun acc a => insertDesc a acc) acc l = acc ++ l by
    simpa using haux arcs [] h List.Pairwise.nil (by simp)
  intro l
  induction l with
  | nil => intro acc _ _ _; simp
  | cons a l ih =>
    intro acc hl hacc hcross
    obtain ⟨ha, hl'⟩ := List.pairwise_cons.mp hl
    simp only [List.foldl_cons]
    rw [insertDesc_append (fun b hb => hcross b hb a (List.mem_cons_self _ _))]
    rw [ih (acc ++ [a]) hl' ?_ ?_]
    · simp
    · rw [List.pairwise_append]
      refine ⟨hacc, by simp, ?_⟩
      intro x hx y hy
      simp only [List.mem_singleton] at hy
      rw [hy]
      exact hcross x hx a (List.mem_cons_self _ _)
    · intro b hb c hc
      rcases List.mem_append.mp hb with hb | hb
      · exact hcross b hb c (List.mem_cons_of_mem _ hc)
      · simp only [List.mem_singleton] at hb
        subst hb
        exact ha c hc

theorem sortArcsDesc_idem (arcs : List Archive) :
    sortArcsDesc (sortArcsDesc arcs) = sortArcsDesc arcs :=
  sortArcsDesc_of_sorted (sortArcsDesc_sorted arcs)

/-! ### Characterizing `arc_names_to_delete` -/

/-- Membership in the accumulated `keep` set is membership in some
keep-spec's retained names. -/
theorem keepFold_mem (sorted : List Archive) (kss : List KeepSpec) (x : String) :
    x ∈ kss.foldl (fun keep ks => keep ++ arc_names_to_keep sorted ks) [] ↔
      ∃ ks ∈ kss, x ∈ arc_names_to_keep sorted ks := by
  suffices h : ∀ (kss : List KeepSpec) (init : List String),
      (x ∈ kss.foldl (fun keep ks => keep ++ arc_names_to_keep sorted ks) init ↔
        x ∈ init ∨ ∃ ks ∈ kss, x ∈ arc_names_to_keep sorted ks) by
    simpa using h kss []
  intro kss
  induction kss with
  | nil => intro init; simp
  | cons ks kss ih =>
    intro init
    simp only [List.foldl_cons, ih, List.mem_append, List.mem_cons]
    constructor
    · rintro ((h | h) | ⟨ks', hks', h⟩)
      · exact Or.inl h
      · exact Or.inr ⟨ks, Or.inl rfl, h⟩
      · exact Or.inr ⟨ks', Or.inr hks', h⟩
    · rintro (h | ⟨ks', (rfl | hks'), h⟩)
      · exact Or.inl (Or.inl h)
      · exact Or.inl (Or.inr h)
      · exact Or.inr ⟨ks', hks', h⟩

/-- `arc_names_to_delete` filters the sorted list, keeping exactly the names
retained by no keep-spec, in sorted order. -/
theorem arc_names_to_delete_char (arcs : List Archive) (kss : List KeepSpec) :
    arc_names_to_delete arcs kss =
      ((sortArcsDesc arcs).filter (fun a =>
        decide (∀ ks ∈ kss, a.name ∉ arc_names_to_keep (sortArcsDesc arcs) ks))).map
        Archive.name := by
  unfold arc_names_to_delete arcNamesToDeleteRun
  simp only []
  congr 1
  apply List.filter_congr
  intro a _
  rw [← decide_not]
  apply decide_eq_decide.mpr
  rw [keepFold_mem]
  push_neg
  simp

/-! ### Splitting and stripping lines -/

theorem pySplitlines_no_newline :
    ∀ (s : List Char), ∀ l ∈ pySplitlines s, '\n' ∉ l := by
  intro s
  induction s with
  | nil => simp [pySplitlines]
  | cons c cs ih =>
    simp only [pySplitlines]
    split_ifs with hc
    · intro l hl
      rcases List.mem_cons.mp hl with rfl | hl
      · simp
      · exact ih l hl
    · cases hps : pySplitlines cs with
      | nil =>
        intro l hl
        rcases List.mem_cons.mp hl with rfl | hl
        · simp only [List.mem_singleton]
          exact fun he => hc he.symm
        · simp at hl
      | cons l0 ls =>
        intro l hl
        rcases List.mem_cons.mp hl with rfl | hl
        · intro hmem
          rcases List.mem_cons.mp hmem with rfl | hmem
          · exact hc rfl
          · exact ih l0 (hps ▸ List.mem_cons_self _ _) hmem
        · exact ih l (hps ▸ List.mem_cons_of_mem _ hl)

theorem splitOnChar_subset (sep : Char) :
    ∀ (s : List Char), ∀ l ∈ splitOnChar sep s, ∀ c ∈ l, c ∈ s := by
  intro s
  induction s with
  | nil =>
    intro l hl
    simp only [splitOnChar, List.mem_singleton] at hl
    simp [hl]
  | cons c0 cs ih =>
    simp only [splitOnChar]
    split_ifs with hc
    · intro l hl
      rcases List.mem_cons.mp hl with rfl | hl
      · simp
      · exact fun c hcl => List.mem_cons_of_mem _ (ih l hl c hcl)
    · cases hps : splitOnChar sep cs with
      | nil =>
        intro l hl
        rcases List.mem_cons.mp hl with rfl | hl
        · intro c hcl
          simp only [List.mem_singleton] at hcl
          simp [hcl]
        · simp at hl
      | cons l0 ls =>
        intro l hl
        rcases List.mem_cons.mp hl with rfl | hl
        · intro c hcl
          rcases List.mem_cons.mp hcl with rfl | hcl
          · exact List.mem_cons_self _ _
          · exact List.mem_cons_of_mem _ (ih l0 (hps ▸ List.mem_cons_self _ _) c hcl)
        · exact fun c hcl =>
            List.mem_cons_of_mem _ (ih l (hps ▸ List.mem_cons_of_mem _ hl) c hcl)

theorem rstripNL_subset (l : List Char) : ∀ c ∈ rstripNL l, c ∈ l := by
  intro c hc
  unfold rstripNL at hc
  rw [List.mem_reverse] at hc
  have h := (l.reverse.dropWhile_sublist (· = '\n')).subset hc
  rwa [List.mem_reverse] at h

theorem rstripNL_eq_self {l : List Char} (h : '\n' ∉ l) : rstripNL l = l := by
  unfold rstripNL
  have hd : l.reverse.dropWhile (· = '\n') = l.reverse := by
    cases hr : l.reverse with
    | nil => simp
    | cons c cs =>
      rw [List.dropWhile_cons]
      have hcl : c ∈ l := by
        rw [← List.mem_reverse, hr]
        exact List.mem_cons_self _ _
      rw [if_neg]
      simp only [decide_eq_true_eq]
      rintro rfl
      exact h hcl
  rw [hd, List.reverse_reverse]

/-! ### The archive-name regular expression -/

theorem nameREGroup1_isSome {s : List Char} (h : '\n' ∉ s) :
    (nameREGroup1 s).isSome := by
  induction s with
  | nil => simp [nameREGroup1, nameSuffixOk]
  | cons c cs ih =>
    rw [nameREGroup1]
    split_ifs with h1 h2
    · rfl
    · exact absurd (show '\n' ∈ c :: cs by rw [← h2]; exact List.mem_cons_self _ _) h
    · obtain ⟨b, hb⟩ := Option.isSome_iff_exists.mp (ih (by simp at h; exact h.2))
      rw [hb]
      rfl

theorem specBaseName_cons_of_not {c : Char} {cs : List Char}
    (h : isTrailRun (c :: cs) = false) :
    specBaseName (c :: cs) = c :: specBaseName cs := by
  unfold specBaseName
  rw [List.length_cons, List.range_succ_eq_map, List.find?_cons_of_neg _ (by simpa using h),
    List.find?_map _ _]
  have hcomp : ((fun i => isTrailRun (List.drop i (c :: cs))) ∘ Nat.succ) =
      (fun i => isTrailRun (List.drop i cs)) := by
    funext i
    simp [Function.comp, List.drop_succ_cons]
  rw [hcomp]
  cases hf : (List.range cs.length).find? (fun i => isTrailRun (List.drop i cs)) with
  | none => simp
  | some i => simp [List.take_succ_cons]

theorem specBaseName_of_no_suffix {s : List Char}
    (h : ∀ i, isTrailRun (s.drop i) = false) : specBaseName s = s := by
  unfold specBaseName
  rw [List.find?_eq_none.mpr (fun i _ => by simp [h i])]

/-- The lazy-group regular expression computes exactly the spec's base-name
derivation on newline-free names. -/
theorem nameREGroup1_eq_specBaseName :
    ∀ (s : List Char), '\n' ∉ s → nameREGroup1 s = some (specBaseName s) := by
  intro s
  induction s with
  | nil =>
    intro _
    rfl
  | cons c cs ih =>
    intro hnl
    have hnl1 : ¬ c = '\n' := by
      simp only [List.mem_cons, not_or] at hnl
      exact fun he => hnl.1 he.symm
    have hnl2 : '\n' ∉ cs := by
      simp only [List.mem_cons, not_or] at hnl
      exact hnl.2
    rw [nameREGroup1]
    by_cases htr : nameSuffixOk (c :: cs) = true
    · rw [if_pos htr]
      unfold specBaseName
      rw [List.length_cons, List.range_succ_eq_map,
        List.find?_cons_of_pos _ (by simp only [List.drop_zero]; exact htr)]
      rfl
    · have htr' : isTrailRun (c :: cs) = false := by
        simp only [Bool.not_eq_true] at htr
        exact htr
      rw [if_neg htr, if_neg hnl1, ih hnl2, specBaseName_cons_of_not htr']
      rfl

/-! ### The keep-spec parser loop -/

theorem parseKeepSpecsAux_ok_iff :
    ∀ toks : List (List Char),
      (∃ l, parseKeepSpecsAux toks = .ok l) ↔
        ∀ tok ∈ toks, (keepTokMatch tok).isSome := by
  intro toks
  induction toks with
  | nil => simp [parseKeepSpecsAux]
  | cons tok rest ih =>
    simp only [parseKeepSpecsAux, List.mem_cons]
    cases hm : keepTokMatch tok with
    | none =>
      constructor
      · rintro ⟨l, hl⟩
        exact absurd hl (by simp)
      · intro hall
        have h1 := hall tok (Or.inl rfl)
        rw [hm] at h1
        exact absurd h1 (by simp)
    | some ks =>
      cases haux : parseKeepSpecsAux rest with
      | error e =>
        constructor
        · rintro ⟨l, hl⟩
          exact absurd hl (by simp [Except.map])
        · intro hall
          obtain ⟨l, hl⟩ := ih.mpr (fun t ht => hall t (Or.inr ht))
          rw [haux] at hl
          exact absurd hl (by simp)
      | ok l2 =>
        constructor
        · intro _ t ht
          rcases ht with rfl | ht
          · rw [hm]
            rfl
          · exact ih.mp ⟨_, haux⟩ t ht
        · intro _
          exact ⟨ks :: l2, rfl⟩

theorem parseKeepSpecsAux_ok_val :
    ∀ (toks : List (List Char)) (l : List KeepSpec),
      parseKeepSpecsAux toks = .ok l → l = toks.filterMap keepTokMatch := by
  intro toks
  induction toks with
  | nil =>
    intro l hl
    simp only [parseKeepSpecsAux] at hl
    injection hl with hl
    simp [← hl]
  | cons tok rest ih =>
    intro l hl
    simp only [parseKeepSpecsAux] at hl
    cases hm : keepTokMatch tok with
    | none => rw [hm] at hl; exact absurd hl (by simp)
    | some ks =>
      rw [hm] at hl
      cases haux : parseKeepSpecsAux rest with
      | error e =>
        rw [haux] at hl
        exact absurd hl (by simp [Except.map])
      | ok l2 =>
        rw [haux] at hl
        simp only [Except.map, Except.ok.injEq] at hl
        rw [List.filterMap_cons, hm, ← hl, ih l2 haux]

/-! ### The listing parser loop -/

/-- Unpacking a well-formed line: its two fields, timestamp, and base name. -/
theorem lineOk_elim {line : List Char} (hok : lineOk line = true) (hnl : '\n' ∉ line) :
    ∃ name ts_str ts base,
      splitOnChar '\t' (rstripNL line) = [name, ts_str] ∧
      strptimeTS ts_str = some ts ∧
      nameREGroup1 name = some base ∧
      lineArc line = some ⟨String.mk name, ts⟩ ∧
      baseOfName (String.mk name) = String.mk base := by
  unfold lineOk at hok
  split at hok
  case h_2 => exact absurd hok (by simp)
  case h_1 name ts_str hsplit =>
    obtain ⟨ts, hts⟩ := Option.isSome_iff_exists.mp hok
    have hnlname : '\n' ∉ name := by
      intro hmem
      exact hnl (rstripNL_subset line _
        (splitOnChar_subset '\t' (rstripNL line) name
          (by rw [hsplit]; exact List.mem_cons_self _ _) _ hmem))
    obtain ⟨base, hbase⟩ := Option.isSome_iff_exists.mp (nameREGroup1_isSome hnlname)
    refine ⟨name, ts_str, ts, base, hsplit, hts, hbase, ?_, ?_⟩
    · unfold lineArc
      rw [hsplit]
      dsimp only
      rw [hts, hbase]
    · unfold baseOfName
      rw [show (String.mk name).data = name from rfl, hbase]
      rfl

/-- A well-formed line advances the parsing loop by appending its archive to
its base name's family. -/
theorem parseArcsAux_step {line : List Char} (hok : lineOk line = true)
    (hnl : '\n' ∉ line) (rest : List (List Char))
    (acc : List (String × List Archive)) :
    ∃ arc base, lineArc line = some arc ∧ baseOfName arc.name = base ∧
      parseArcsAux (line :: rest) acc = parseArcsAux rest (dictAppend acc base arc) := by
  obtain ⟨name, ts_str, ts, base, hsplit, hts, hbase, harc, hbon⟩ := lineOk_elim hok hnl
  refine ⟨⟨String.mk name, ts⟩, String.mk base, harc, hbon, ?_⟩
  show (match splitOnChar '\t' (rstripNL line) with
    | [name, ts_str] =>
      match strptimeTS ts_str with
      | none => Except.error (ListingError.invalidLine (String.mk (rstripNL line)))
      | some ts =>
        match nameREGroup1 name with
        | none => Except.error (ListingError.nameMatchFailure (String.mk (rstripNL line)))
        | some base =>
          parseArcsAux rest (dictAppend acc (String.mk base) ⟨String.mk name, ts⟩)
    | _ => Except.error (ListingError.invalidLine (String.mk (rstripNL line)))) =
    parseArcsAux rest (dictAppend acc (String.mk base) ⟨String.mk name, ts⟩)
  rw [hsplit]
  dsimp only
  rw [hts, hbase]

/-- A malformed line aborts the loop with `invalidLine` carrying it. -/
theorem parseArcsAux_step_bad {line : List Char} (hbad : lineOk line = false)
    (rest : List (List Char)) (acc : List (String × List Archive)) :
    parseArcsAux (line :: rest) acc =
      .error (.invalidLine (String.mk (rstripNL line))) := by
  unfold lineOk at hbad
  show (match splitOnChar '\t' (rstripNL line) with
    | [name, ts_str] =>
      match strptimeTS ts_str with
      | none => Except.error (ListingError.invalidLine (String.mk (rstripNL line)))
      | some ts =>
        match nameREGroup1 name with
        | none => Except.error (ListingError.nameMatchFailure (String.mk (rstripNL line)))
        | some base =>
          parseArcsAux rest (dictAppend acc (String.mk base) ⟨String.mk name, ts⟩)
    | _ => Except.error (ListingError.invalidLine (String.mk (rstripNL line)))) =
    Except.error (ListingError.invalidLine (String.mk (rstripNL line)))
  split at hbad
  case h_1 name ts_str hsplit =>
    cases hts : strptimeTS ts_str with
    | none => rfl
    | some ts =>
      rw [hts] at hbad
      exact absurd hbad (by simp)
  case h_2 => rfl


theorem parseArcsAux_ok_iff :
    ∀ (lines : List (List Char)) (acc : List (String × List Archive)),
      (∀ l ∈ lines, '\n' ∉ l) →
      ((∃ d, parseArcsAux lines acc = .ok d) ↔ ∀ l ∈ lines, lineOk l = true) := by
  intro lines
  induction lines with
  | nil => intro acc _; simp [parseArcsAux]
  | cons line rest ih =>
    intro acc hnl
    have hnl1 : '\n' ∉ line := hnl line (List.mem_cons_self _ _)
    have hnl2 : ∀ l ∈ rest, '\n' ∉ l := fun l hl => hnl l (List.mem_cons_of_mem _ hl)
    cases hok : lineOk line with
    | false =>
      rw [parseArcsAux_step_bad hok]
      simp only [List.mem_cons]
      constructor
      · rintro ⟨d, hd⟩
        exact absurd hd (by simp)
      · intro hall
        exact absurd (hall line (Or.inl rfl)) (by simp [hok])
    | true =>
      obtain ⟨arc, base, -, -, hstep⟩ := parseArcsAux_step hok hnl1 rest acc
      rw [hstep]
      rw [ih _ hnl2]
      simp only [List.mem_cons]
      constructor
      · intro hall l hl
        rcases hl with rfl | hl
        · exact hok
        · exact hall l hl
      · intro hall l hl
        exact hall l (Or.inr hl)

theorem parseArcsAux_first_error :
    ∀ (good : List (List Char)) (bad : List Char) (rest : List (List Char))
      (acc : List (String × List Archive)),
      (∀ l ∈ good, lineOk l = true) → (∀ l ∈ good, '\n' ∉ l) →
      lineOk bad = false →
      parseArcsAux (good ++ bad :: rest) acc =
        .error (.invalidLine (String.mk (rstripNL bad))) := by
  intro good
  induction good with
  | nil =>
    intro bad rest acc _ _ hbad
    simpa using parseArcsAux_step_bad hbad rest acc
  | cons line good ih =>
    intro bad rest acc hok hnl hbad
    have h1 : lineOk line = true := hok line (List.mem_cons_self _ _)
    have h2 : '\n' ∉ line := hnl line (List.mem_cons_self _ _)
    obtain ⟨arc, base, -, -, hstep⟩ := parseArcsAux_step h1 h2 (good ++ bad :: rest) acc
    rw [List.cons_append, hstep]
    exact ih bad rest _ (fun l hl => hok l (List.mem_cons_of_mem _ hl))
      (fun l hl => hnl l (List.mem_cons_of_mem _ hl)) hbad

/-- The `RuntimeError` branch (`NAME_RE` failing to match) is unreachable
from newline-free lines. -/
theorem parseArcsAux_no_nameError :
    ∀ (lines : List (List Char)) (acc : List (String × List Archive)),
      (∀ l ∈ lines, '\n' ∉ l) →
      ∀ e, parseArcsAux lines acc ≠ .error (.nameMatchFailure e) := by
  intro lines
  induction lines with
  | nil => intro acc _ e h; exact absurd h (by simp [parseArcsAux])
  | cons line rest ih =>
    intro acc hnl e h
    have hnl1 : '\n' ∉ line := hnl line (List.mem_cons_self _ _)
    have hnl2 : ∀ l ∈ rest, '\n' ∉ l := fun l hl => hnl l (List.mem_cons_of_mem _ hl)
    cases hok : lineOk line with
    | false =>
      rw [parseArcsAux_step_bad hok] at h
      exact absurd h (by simp)
    | true =>
      obtain ⟨arc, base, -, -, hstep⟩ := parseArcsAux_step hok hnl1 rest acc
      rw [hstep] at h
      exact ih _ hnl2 e h

/-! ### Grouping into families -/

theorem dictLookup_dictAppend (d : List (String × List Archive)) (k' : String)
    (a : Archive) (k : String) :
    dictLookup (dictAppend d k' a) k =
      dictLookup d k ++ (if k' = k then [a] else []) := by
  induction d with
  | nil =>
    simp only [dictAppend, dictLookup, List.find?]
    by_cases hk : k' = k
    · subst hk
      simp
    · rw [if_neg hk]
      have : (k' == k) = false := by simpa using hk
      simp [this]
  | cons p d ih =>
    obtain ⟨k0, l0⟩ := p
    simp only [dictAppend]
    by_cases h0 : k0 = k'
    · subst h0
      simp only [if_pos rfl, dictLookup, List.find?]
      by_cases hk : k0 = k
      · subst hk
        simp
      · have : (k0 == k) = false := by simpa using hk
        simp [this, hk]
    · rw [if_neg h0]
      simp only [dictLookup, List.find?]
      by_cases hk : k0 = k
      · subst hk
        have hne : ¬ k' = k0 := fun h => h0 h.symm
        simp [hne]
      · have : (k0 == k) = false := by simpa using hk
        simp only [this]
        exact ih

/-- On success, each family holds exactly the archives of the well-formed
lines whose base name is the family key, in input order. -/
theorem parseArcsAux_group :
    ∀ (lines : List (List Char)) (acc : List (String × List Archive))
      (d : List (String × List Archive)),
      (∀ l ∈ lines, '\n' ∉ l) →
      parseArcsAux lines acc = .ok d →
      ∀ k, dictLookup d k =
        dictLookup acc k ++
          ((lines.filterMap lineArc).filter (fun a => baseOfName a.name == k)) := by
  intro lines
  induction lines with
  | nil =>
    intro acc d _ hok k
    simp only [parseArcsAux] at hok
    injection hok with hok
    subst hok
    simp
  | cons line rest ih =>
    intro acc d hnl hok k
    have hnl1 : '\n' ∉ line := hnl line (List.mem_cons_self _ _)
    have hnl2 : ∀ l ∈ rest, '\n' ∉ l := fun l hl => hnl l (List.mem_cons_of_mem _ hl)
    cases hlok : lineOk line with
    | false =>
      rw [parseArcsAux_step_bad hlok] at hok
      exact absurd hok (by simp)
    | true =>
      obtain ⟨arc, base, harc, hbon, hstep⟩ := parseArcsAux_step hlok hnl1 rest acc
      rw [hstep] at hok
      have := ih _ d hnl2 hok k
      rw [this, dictLookup_dictAppend]
      rw [List.filterMap_cons, harc]
      simp only [List.filter_cons]
      by_cases hbk : base = k
      · rw [if_pos hbk]
        have : (baseOfName arc.name == k) = true := by
          rw [hbon, hbk]
          simp
        rw [this]
        simp
      · rw [if_neg hbk]
        have : (baseOfName arc.name == k) = false := by
          rw [hbon]
          simpa using hbk
        rw [this]
        simp

/-! ## Claim theorems -/

/-- C1: for every archive list sorted in descending timestamp order and
every keep-spec with count `N` and a catalog granularity, `arc_names_to_keep`
yields at most `N` names, at most one name per distinct bucket key, always
the newest archive within each kept period, and an archive whose bucket
equals the last-yielded bucket is skipped without incrementing the count of
periods kept. -/
theorem claim_C1_selector (arcs : List Archive) (ks : KeepSpec)
    (hsort : SortedDesc arcs)
    (hvalid : ∀ a ∈ arcs, a.timestamp.Valid)
    (hpat : ks.timepattern ∈ TIME_PATTERNS.map Prod.snd) :
    arc_names_to_keep arcs ks = (keptArcs arcs ks).map Archive.name ∧
    (arc_names_to_keep arcs ks).length ≤ ks.num ∧
    ((keptArcs arcs ks).map (fun a => strftime a.timestamp ks.timepattern)).Nodup ∧
    (∀ b ∈ keptArcs arcs ks, ∀ c ∈ arcs,
      strftime c.timestamp ks.timepattern = strftime b.timestamp ks.timepattern →
      dtLe c.timestamp b.timestamp) ∧
    (∀ (a : Archive) (rest : List Archive) (n : Nat), n ≠ ks.num →
      arcNamesToKeepAux ks (a :: rest) n (some (strftime a.timestamp ks.timepattern)) =
        arcNamesToKeepAux ks rest n (some (strftime a.timestamp ks.timepattern))) := by
  have hbet := patternBetween_of_mem ks.timepattern hpat
  have hghost : PrevGhost ks arcs none := by
    intro p hp
    exact absurd hp (by simp)
  refine ⟨arc_names_to_keep_eq_keptArcs arcs ks, ?_, ?_, ?_, ?_⟩
  · rw [arc_names_to_keep_eq_keptArcs, List.length_map]
    have := keptAux_length ks arcs 0 none (Nat.zero_le _)
    unfold keptArcs
    omega
  · exact (keptAux_keys_nodup ks hbet arcs 0 none hsort hvalid hghost).1
  · exact keptAux_newest ks hbet arcs 0 none hsort hvalid hghost
  · intro a rest n hn
    simp only [arcNamesToKeepAux, if_neg hn]
    simp

/-- Witness for C1 at the two-archive instance with the month granularity. -/
theorem claim_C1_selector_witness :
    SortedDesc [⟨"a", ⟨2000, 1, 2, 0, 0, 0⟩⟩, ⟨"b", ⟨2000, 1, 1, 0, 0, 0⟩⟩] ∧
    (∀ a ∈ ([⟨"a", ⟨2000, 1, 2, 0, 0, 0⟩⟩, ⟨"b", ⟨2000, 1, 1, 0, 0, 0⟩⟩] : List Archive),
      a.timestamp.Valid) ∧
    "%Y-%m" ∈ TIME_PATTERNS.map Prod.snd ∧
    (arc_names_to_keep [⟨"a", ⟨2000, 1, 2, 0, 0, 0⟩⟩, ⟨"b", ⟨2000, 1, 1, 0, 0, 0⟩⟩]
        ⟨"%Y-%m", 2⟩ =
      (keptArcs [⟨"a", ⟨2000, 1, 2, 0, 0, 0⟩⟩, ⟨"b", ⟨2000, 1, 1, 0, 0, 0⟩⟩]
        ⟨"%Y-%m", 2⟩).map Archive.name ∧
    (arc_names_to_keep [⟨"a", ⟨2000, 1, 2, 0, 0, 0⟩⟩, ⟨"b", ⟨2000, 1, 1, 0, 0, 0⟩⟩]
        ⟨"%Y-%m", 2⟩).length ≤ (⟨"%Y-%m", 2⟩ : KeepSpec).num ∧
    ((keptArcs [⟨"a", ⟨2000, 1, 2, 0, 0, 0⟩⟩, ⟨"b", ⟨2000, 1, 1, 0, 0, 0⟩⟩]
        ⟨"%Y-%m", 2⟩).map
      (fun a => strftime a.timestamp (⟨"%Y-%m", 2⟩ : KeepSpec).timepattern)).Nodup ∧
    (∀ b ∈ keptArcs [⟨"a", ⟨2000, 1, 2, 0, 0, 0⟩⟩, ⟨"b", ⟨2000, 1, 1, 0, 0, 0⟩⟩]
        ⟨"%Y-%m", 2⟩,
      ∀ c ∈ ([⟨"a", ⟨2000, 1, 2, 0, 0, 0⟩⟩, ⟨"b", ⟨2000, 1, 1, 0, 0, 0⟩⟩] : List Archive),
      strftime c.timestamp (⟨"%Y-%m", 2⟩ : KeepSpec).timepattern =
        strftime b.timestamp (⟨"%Y-%m", 2⟩ : KeepSpec).timepattern →
      dtLe c.timestamp b.timestamp) ∧
    (∀ (a : Archive) (rest : List Archive) (n : Nat),
      n ≠ (⟨"%Y-%m", 2⟩ : KeepSpec).num →
      arcNamesToKeepAux ⟨"%Y-%m", 2⟩ (a :: rest) n
          (some (strftime a.timestamp (⟨"%Y-%m", 2⟩ : KeepSpec).timepattern)) =
        arcNamesToKeepAux ⟨"%Y-%m", 2⟩ rest n
          (some (strftime a.timestamp (⟨"%Y-%m", 2⟩ : KeepSpec).timepattern)))) :=
  ⟨by decide, by decide, by decide,
    claim_C1_selector _ _ (by decide) (by decide) (by decide)⟩

/-- C2 counterexample: with an unsorted input list and no keep-specs,
`arc_names_to_delete` yields in sorted (timestamp-descending) order, not in
the original archive order. -/
theorem claim_C2_counterexample :
    arc_names_to_delete
        [⟨"1", ⟨2000, 1, 1, 0, 0, 0⟩⟩, ⟨"2", ⟨2001, 1, 1, 0, 0, 0⟩⟩] [] = ["2", "1"] ∧
    arc_names_to_delete
        [⟨"1", ⟨2000, 1, 1, 0, 0, 0⟩⟩, ⟨"2", ⟨2001, 1, 1, 0, 0, 0⟩⟩] [] ≠ ["1", "2"] := by
  decide

/-- C2 as amended: `arc_names_to_delete` yields, in the order of the list
sorted by descending timestamp, exactly those archive names not in the union
over all keep-specs of the retained names; with an empty keep-spec list it
yields every archive's name. -/
theorem claim_C2_amended (arcs : List Archive) (kss : List KeepSpec) :
    arc_names_to_delete arcs kss =
      ((sortArcsDesc arcs).filter (fun a =>
        decide (∀ ks ∈ kss, a.name ∉ arc_names_to_keep (sortArcsDesc arcs) ks))).map
        Archive.name ∧
    arc_names_to_delete arcs [] = (sortArcsDesc arcs).map Archive.name := by
  refine ⟨arc_names_to_delete_char arcs kss, ?_⟩
  rw [arc_names_to_delete_char arcs []]
  simp

/-- C3 counterexample: a zero-count token is accepted by
`parse_keep_specs`, producing a `KeepSpec` with count 0 rather than
failing. -/
theorem claim_C3_counterexample :
    parse_keep_specs "0d" = .ok [⟨"%Y-%m-%d", 0⟩] := rfl

/-- C3 as amended: `parse_keep_specs` fails exactly when some comma-separated
token (in particular, the sole empty token of an empty policy string) does
not consist of a nonempty digit run followed by a granularity tag — a bare
tag has no digits and fails, but a zero count is accepted; each valid token
produces one `KeepSpec` in input order. -/
theorem claim_C3_amended (spec : String) :
    ((∃ l, parse_keep_specs spec = .ok l) ↔
      ∀ tok ∈ splitOnChar ',' spec.data, (keepTokMatch tok).isSome) ∧
    (∀ l, parse_keep_specs spec = .ok l →
      l = (splitOnChar ',' spec.data).filterMap keepTokMatch) ∧
    parse_keep_specs "" = .error "" :=
  ⟨parseKeepSpecsAux_ok_iff _, fun l hl => parseKeepSpecsAux_ok_val _ l hl, rfl⟩

/-- Witness for C3 as amended at the policy string of the test suite. -/
theorem claim_C3_amended_witness :
    parse_keep_specs "2d,5w,4mon" =
      .ok [⟨"%Y-%m-%d", 2⟩, ⟨"%G-%V", 5⟩, ⟨"%Y-%m", 4⟩] ∧
    ([⟨"%Y-%m-%d", 2⟩, ⟨"%G-%V", 5⟩, ⟨"%Y-%m", 4⟩] : List KeepSpec) =
      (splitOnChar ',' "2d,5w,4mon".data).filterMap keepTokMatch :=
  ⟨rfl, (claim_C3_amended "2d,5w,4mon").2.1 _ rfl⟩

/-- C4: `parse_arcs` succeeds exactly when every line splits into two
tab-separated fields with a parseable timestamp; the first malformed line
fails the whole parse with the `ValueError` (`InvalidListingLine`) carrying
that line, with no partial result, and an empty listing yields an empty
family mapping. -/
theorem claim_C4_parse_arcs (listing : String) :
    ((∃ d, parse_arcs listing = .ok d) ↔
      ∀ line ∈ pySplitlines listing.data, lineOk line = true) ∧
    (∀ good bad rest, pySplitlines listing.data = good ++ bad :: rest →
      (∀ l ∈ good, lineOk l = true) → lineOk bad = false →
      parse_arcs listing = .error (.invalidLine (String.mk (rstripNL bad)))) ∧
    (∀ line ∈ pySplitlines listing.data, rstripNL line = line) ∧
    parse_arcs "" = .ok [] := by
  have hnl := pySplitlines_no_newline listing.data
  refine ⟨parseArcsAux_ok_iff _ [] hnl, ?_, ?_, rfl⟩
  · intro good bad rest hsplit hgood hbad
    unfold parse_arcs
    rw [hsplit]
    exact parseArcsAux_first_error good bad rest [] hgood
      (fun l hl => hnl l (by rw [hsplit]; exact List.mem_append_left _ hl)) hbad
  · intro line hline
    exact rstripNL_eq_self (hnl line hline)

/-- Witness for C4: a well-formed listing parses; appending a malformed line
fails with that line. -/
theorem claim_C4_parse_arcs_witness :
    (∃ d, parse_arcs "foo\t2000-01-01 00:00:00" = .ok d) ∧
    parse_arcs "foo\t2000-01-01 00:00:00\nbad" =
      .error (.invalidLine (String.mk (rstripNL "bad".data))) :=
  ⟨(claim_C4_parse_arcs _).1.mpr (by decide),
    (claim_C4_parse_arcs "foo\t2000-01-01 00:00:00\nbad").2.1
      ["foo\t2000-01-01 00:00:00".data] "bad".data [] (by decide) (by decide) (by decide)⟩

/-- C5: the deletion result is invariant under permuting the keep-spec list
and under appending a duplicate of any of its keep-specs. -/
theorem claim_C5_policy_invariance (arcs : List Archive) (kss kss' : List KeepSpec) :
    (kss.Perm kss' → arc_names_to_delete arcs kss = arc_names_to_delete arcs kss') ∧
    (∀ ks ∈ kss, arc_names_to_delete arcs (kss ++ [ks]) = arc_names_to_delete arcs kss) := by
  have hext : ∀ (l1 l2 : List KeepSpec), (∀ ks, ks ∈ l1 ↔ ks ∈ l2) →
      arc_names_to_delete arcs l1 = arc_names_to_delete arcs l2 := by
    intro l1 l2 hmem
    rw [arc_names_to_delete_char, arc_names_to_delete_char]
    congr 1
    apply List.filter_congr
    intro a _
    apply decide_eq_decide.mpr
    constructor
    · intro h ks hks
      exact h ks ((hmem ks).mpr hks)
    · intro h ks hks
      exact h ks ((hmem ks).mp hks)
  constructor
  · intro hperm
    exact hext _ _ (fun ks => hperm.mem_iff)
  · intro ks hks
    apply hext
    intro ks'
    simp only [List.mem_append, List.mem_singleton]
    constructor
    · rintro (h | rfl)
      · exact h
      · exact hks
    · exact Or.inl

/-- Witness for C5 at a two-spec policy over two archives. -/
theorem claim_C5_policy_invariance_witness :
    ([⟨"%Y-%m-%d", 1⟩, ⟨"%Y", 1⟩] : List KeepSpec).Perm [⟨"%Y", 1⟩, ⟨"%Y-%m-%d", 1⟩] ∧
    arc_names_to_delete [⟨"1", ⟨2000, 1, 1, 0, 0, 0⟩⟩, ⟨"2", ⟨2000, 1, 2, 0, 0, 0⟩⟩]
        [⟨"%Y-%m-%d", 1⟩, ⟨"%Y", 1⟩] =
      arc_names_to_delete [⟨"1", ⟨2000, 1, 1, 0, 0, 0⟩⟩, ⟨"2", ⟨2000, 1, 2, 0, 0, 0⟩⟩]
        [⟨"%Y", 1⟩, ⟨"%Y-%m-%d", 1⟩] ∧
    (⟨"%Y-%m-%d", 1⟩ : KeepSpec) ∈ ([⟨"%Y-%m-%d", 1⟩, ⟨"%Y", 1⟩] : List KeepSpec) ∧
    arc_names_to_delete [⟨"1", ⟨2000, 1, 1, 0, 0, 0⟩⟩, ⟨"2", ⟨2000, 1, 2, 0, 0, 0⟩⟩]
        ([⟨"%Y-%m-%d", 1⟩, ⟨"%Y", 1⟩] ++ [⟨"%Y-%m-%d", 1⟩]) =
      arc_names_to_delete [⟨"1", ⟨2000, 1, 1, 0, 0, 0⟩⟩, ⟨"2", ⟨2000, 1, 2, 0, 0, 0⟩⟩]
        [⟨"%Y-%m-%d", 1⟩, ⟨"%Y", 1⟩] :=
  ⟨by decide,
    (claim_C5_policy_invariance _ _ _).1 (by decide),
    by decide,
    (claim_C5_policy_invariance
      [⟨"1", ⟨2000, 1, 1, 0, 0, 0⟩⟩, ⟨"2", ⟨2000, 1, 2, 0, 0, 0⟩⟩]
      [⟨"%Y-%m-%d", 1⟩, ⟨"%Y", 1⟩] []).2 _ (by decide)⟩

/-- C6: the derived base name is the name with the longest trailing run of
the form `-[0-9-]*` removed (the name itself when no such suffix exists),
and `parse_arcs` groups archives into families exactly by equal base names,
appending in input order. -/
theorem claim_C6_base_name :
    (∀ s : List Char, '\n' ∉ s → nameREGroup1 s = some (specBaseName s)) ∧
    (∀ s : List Char, (∀ i, isTrailRun (s.drop i) = false) → specBaseName s = s) ∧
    (∀ (listing : String) (d : List (String × List Archive)),
      parse_arcs listing = .ok d → ∀ k,
      dictLookup d k =
        ((pySplitlines listing.data).filterMap lineArc).filter
          (fun a => baseOfName a.name == k)) := by
  refine ⟨nameREGroup1_eq_specBaseName, fun s h => specBaseName_of_no_suffix h, ?_⟩
  intro listing d hok k
  have h := parseArcsAux_group (pySplitlines listing.data) [] d
    (pySplitlines_no_newline listing.data) hok k
  simpa [dictLookup] using h

/-- Witness for C6 at the grouping example of the test suite. -/
theorem claim_C6_base_name_witness :
    ('\n' ∉ "name-20200101-1200".data) ∧
    nameREGroup1 "name-20200101-1200".data =
      some (specBaseName "name-20200101-1200".data) ∧
    parse_arcs "foo\t2000-01-01 00:00:00\nfoo-123\t1999-02-02 03:00:00\nbar-123\t1999-02-02 03:00:00\n" =
      .ok [("foo", [⟨"foo", ⟨2000, 1, 1, 0, 0, 0⟩⟩, ⟨"foo-123", ⟨1999, 2, 2, 3, 0, 0⟩⟩]),
           ("bar", [⟨"bar-123", ⟨1999, 2, 2, 3, 0, 0⟩⟩])] ∧
    dictLookup [("foo", [⟨"foo", ⟨2000, 1, 1, 0, 0, 0⟩⟩, ⟨"foo-123", ⟨1999, 2, 2, 3, 0, 0⟩⟩]),
        ("bar", [⟨"bar-123", ⟨1999, 2, 2, 3, 0, 0⟩⟩])] "foo" =
      ((pySplitlines ("foo\t2000-01-01 00:00:00\nfoo-123\t1999-02-02 03:00:00\nbar-123\t1999-02-02 03:00:00\n").data).filterMap
        lineArc).filter (fun a => baseOfName a.name == "foo") :=
  by
  have h3 : parse_arcs "foo\t2000-01-01 00:00:00\nfoo-123\t1999-02-02 03:00:00\nbar-123\t1999-02-02 03:00:00\n" =
      .ok [("foo", [⟨"foo", ⟨2000, 1, 1, 0, 0, 0⟩⟩, ⟨"foo-123", ⟨1999, 2, 2, 3, 0, 0⟩⟩]),
           ("bar", [⟨"bar-123", ⟨1999, 2, 2, 3, 0, 0⟩⟩])] := rfl
  exact ⟨by decide, claim_C6_base_name.1 _ (by decide), h3,
    claim_C6_base_name.2.2 _ _ h3 "foo"⟩

/-- C7: the week bucket key follows ISO-8601 year-week numbering at the
2008/2009 boundary: December 29 and 30 of 2008 share a key, December 28 and
29 do not. -/
theorem claim_C7_week_bucket :
    strftime ⟨2008, 12, 29, 0, 0, 0⟩ "%G-%V" = strftime ⟨2008, 12, 30, 0, 0, 0⟩ "%G-%V" ∧
    strftime ⟨2008, 12, 28, 0, 0, 0⟩ "%G-%V" ≠ strftime ⟨2008, 12, 29, 0, 0, 0⟩ "%G-%V" := by
  decide

/-- C8 counterexample: `arc_names_to_delete` sorts its input list in place,
so an unsorted input list does not come back unchanged. -/
theorem claim_C8_counterexample :
    (arcNamesToDeleteRun
        [⟨"1", ⟨2000, 1, 1, 0, 0, 0⟩⟩, ⟨"2", ⟨2001, 1, 1, 0, 0, 0⟩⟩] []).1 ≠
      [⟨"1", ⟨2000, 1, 1, 0, 0, 0⟩⟩, ⟨"2", ⟨2001, 1, 1, 0, 0, 0⟩⟩] := by
  decide

/-- C8 as amended: `arc_names_to_delete` leaves the input list sorted by
descending timestamp — a permutation of the original records, whose fields
are never mutated — and its yields are a pure function of the inputs. -/
theorem claim_C8_amended (arcs : List Archive) (kss : List KeepSpec) :
    (arcNamesToDeleteRun arcs kss).1 = sortArcsDesc arcs ∧
    (sortArcsDesc arcs).Perm arcs ∧
    (arcNamesToDeleteRun arcs kss).2 = arc_names_to_delete arcs kss :=
  ⟨rfl, sortArcsDesc_perm arcs, rfl⟩

/-- C9: running `arc_names_to_delete` a second time, on the list state left
behind by the first run, returns the same list state and the same yielded
names (idempotence; no hidden state). -/
theorem claim_C9_idempotent (arcs : List Archive) (kss : List KeepSpec) :
    arcNamesToDeleteRun ((arcNamesToDeleteRun arcs kss).1) kss =
      arcNamesToDeleteRun arcs kss := by
  show arcNamesToDeleteRun (sortArcsDesc arcs) kss = arcNamesToDeleteRun arcs kss
  unfold arcNamesToDeleteRun
  rw [sortArcsDesc_idem]

/-- C10 counterexample: `NAME_RE` does not full-match every string — `.`
does not match a newline. -/
theorem claim_C10_counterexample :
    nameREGroup1 ['a', '\n', 'b'] = none := by
  decide

/-- C10 as amended: `NAME_RE` full-matches every newline-free string, and
since listing lines never contain a newline, the `RuntimeError` branch of
`parse_arcs` is unreachable for every input listing. -/
theorem claim_C10_amended :
    (∀ s : List Char, '\n' ∉ s → (nameREGroup1 s).isSome) ∧
    (∀ (listing : String) (line : String),
      parse_arcs listing ≠ .error (.nameMatchFailure line)) :=
  ⟨fun _ h => nameREGroup1_isSome h,
    fun listing line =>
      parseArcsAux_no_nameError _ [] (pySplitlines_no_newline listing.data) line⟩

/-- Witness for C10 as amended. -/
theorem claim_C10_amended_witness :
    ('\n' ∉ ['a', 'b']) ∧ (nameREGroup1 ['a', 'b']).isSome ∧
    parse_arcs "x\ty" ≠ .error (.nameMatchFailure "x\ty") :=
  ⟨by decide, claim_C10_amended.1 _ (by decide), claim_C10_amended.2 "x\ty" "x\ty"⟩

end TarsnapPrune
